import Mathlib

/-!
Shallow embedding of the de-identification and record-splitting core of the
hospital-record masking tools (medical_record_splitter.py,
medical_report_splitter.py, admission_record_deidentifier.py,
consultation_record_splitter.py).  Python strings are modelled as lists of
characters; each regular-expression pass of the source is embedded as an
executable scanner with the same leftmost, non-overlapping, greedy-with-
backtracking semantics the source relies on.  Python str.replace is embedded
as a leftmost non-overlapping replace-all.
-/

namespace HospMask

/-- Python strings, modelled as lists of characters. -/
abbrev Str := List Char

/-- ASCII decimal digit, the regex class backslash-d on the inputs in play. -/
def isDig (c : Char) : Bool := 48 ≤ c.toNat && c.toNat ≤ 57

/-- Han character range of the regex class [u4e00-u9fa5] used by the source. -/
def isHan (c : Char) : Bool := 0x4e00 ≤ c.toNat && c.toNat ≤ 0x9fa5

/-- Whitespace per the regex class backslash-s on the character set in play
(ASCII whitespace plus the ideographic space U+3000 used in the documents). -/
def isWs (c : Char) : Bool :=
  c.toNat = 32 || c.toNat = 9 || c.toNat = 10 || c.toNat = 13 ||
    c.toNat = 11 || c.toNat = 12 || c.toNat = 0x3000

/-- Word character per the regex boundary backslash-b, on the character set
that appears in these documents: ASCII alphanumerics, underscore, Han. -/
def isWordCh (c : Char) : Bool :=
  (65 ≤ c.toNat && c.toNat ≤ 90) || (97 ≤ c.toNat && c.toNat ≤ 122) ||
    isDig c || c.toNat = 95 || isHan c

/-- ASCII uppercase letter. -/
def isUpper (c : Char) : Bool := 65 ≤ c.toNat && c.toNat ≤ 90

/-- ASCII lowercase letter. -/
def isLower (c : Char) : Bool := 97 ≤ c.toNat && c.toNat ≤ 122

/-- startsSeg p t: p is an initial segment of t. -/
def startsSeg : Str → Str → Bool
  | [], _ => true
  | _ :: _, [] => false
  | c :: ps, d :: ts => c == d && startsSeg ps ts

/-- hasSeg t s: s occurs as a contiguous segment of t. -/
def hasSeg : Str → Str → Bool
  | [], s => startsSeg s []
  | c :: ts, s => startsSeg s (c :: ts) || hasSeg ts s

/-- s occurs as a contiguous segment of t. -/
def Occurs (s t : Str) : Prop := ∃ a b, t = a ++ s ++ b

/-- Leftmost non-overlapping replace-all with explicit fuel (Python
str.replace). With the pattern empty it degenerates to the identity. -/
def repAll : Nat → Str → Str → Str → Str
  | 0, t, _, _ => t
  | _ + 1, [], _, _ => []
  | fuel + 1, c :: ts, p, r =>
    if !p.isEmpty && startsSeg p (c :: ts) then
      r ++ repAll fuel (List.drop (p.length - 1) ts) p r
    else
      c :: repAll fuel ts p r

/-- Python str.replace old new: replace every leftmost non-overlapping
occurrence of p in t with r. -/
def replaceAll (t p r : Str) : Str := repAll (t.length + 1) t p r


/-! ## Scanner infrastructure (re.finditer semantics) -/

/-- The three masking modes of DataMasker (medical_report_splitter.py). -/
inductive Mode where
  | remove
  | asterisk
  | placeholder
deriving DecidableEq, Repr

/-- Driver for re.finditer: leftmost, non-overlapping scan.  The callback
receives the character preceding the current position (for word boundaries)
and the remaining text, and yields a payload, the matched span and the rest. -/
def scanG {α : Type} (mAt : Option Char → Str → Option (α × Str × Str)) :
    Nat → Option Char → Str → List α
  | 0, _, _ => []
  | _ + 1, _, [] => []
  | fuel + 1, prev, c :: ts =>
    match mAt prev (c :: ts) with
    | some (a, whole, rest) => a :: scanG mAt fuel whole.getLast? rest
    | none => scanG mAt fuel (some c) ts

/-- ASCII or full-width colon, the regex class [:：]. -/
def isColon (c : Char) : Bool := c.toNat = 58 || c.toNat = 0xff1a

/-- First literal of the list that starts the text (regex alternation). -/
def matchLits : List Str → Str → Option (Str × Str)
  | [], _ => none
  | l :: ls, t => if startsSeg l t then some (l, t.drop l.length) else matchLits ls t

/-- Word boundary against the preceding character. -/
def boundaryB (prev : Option Char) : Bool :=
  match prev with
  | none => true
  | some c => !isWordCh c

/-- Word boundary against the following text. -/
def boundaryA : Str → Bool
  | [] => true
  | c :: _ => !isWordCh c

/-- Character class of a national-ID match: digits plus the check letter. -/
def isIdC (c : Char) : Bool := isDig c || c = 'X' || c = 'x'

/-- Exactly n characters satisfying p. -/
def takeCount (p : Char → Bool) (n : Nat) (t : Str) : Option (Str × Str) :=
  let pre := t.take n
  if pre.length = n && pre.all p then some (pre, t.drop n) else none

/-! ## DataMasker (medical_report_splitter.py, after the unified patch) -/

/-- Patched id-card pattern: 15 digits at word boundaries, else 17 digits
followed by a digit or X/x at word boundaries. -/
def idMatchAt (prev : Option Char) (t : Str) : Option (Str × Str × Str) :=
  if boundaryB prev then
    match takeCount isDig 15 t with
    | some (m15, r15) =>
      if boundaryA r15 then some (m15, m15, r15)
      else
        match takeCount isDig 17 t with
        | some (m17, r17) =>
          match r17 with
          | c :: rest2 =>
            if isIdC c && boundaryA rest2 then
              some (m17 ++ [c], m17 ++ [c], rest2)
            else none
          | [] => none
        | none => none
    | none => none
  else none

/-- Mobile-number pattern: word boundary, 1, then 3-9, then 9 digits, word
boundary. -/
def phoneMatchAt (prev : Option Char) (t : Str) : Option (Str × Str × Str) :=
  if boundaryB prev then
    match t with
    | c1 :: c2 :: rest =>
      if c1 = '1' && (51 ≤ c2.toNat && c2.toNat ≤ 57) then
        match takeCount isDig 9 rest with
        | some (m9, r) =>
          if boundaryA r then some (c1 :: c2 :: m9, c1 :: c2 :: m9, r) else none
        | none => none
      else none
    | _ => none
  else none

/-- Admission-number labels. -/
def admLabels : List Str := ["住院号".toList, "入院号".toList, "病案号".toList]

/-- Characters of an admission code, the regex class [0-9A-Z-]. -/
def isAdmCode (c : Char) : Bool := isDig c || isUpper c || c = '-'

/-- Admission-number pattern: label, colon, whitespace, nonempty code. -/
def admMatchAt (_ : Option Char) (t : Str) : Option (Str × Str × Str) :=
  match matchLits admLabels t with
  | none => none
  | some (lbl, t1) =>
    match t1 with
    | [] => none
    | c :: t2 =>
      if isColon c then
        let ws := t2.takeWhile isWs
        let t3 := t2.dropWhile isWs
        let code := t3.takeWhile isAdmCode
        if code.isEmpty then none
        else
          let whole := lbl ++ c :: (ws ++ code)
          some (whole, whole, t3.drop code.length)
      else none

/-- Hospital-name suffix vocabulary of the report masker. -/
def dmHospSuffixes : List Str :=
  ["医院".toList, "卫生院".toList, "卫生所".toList, "诊所".toList,
   "医疗中心".toList, "人民医院".toList, "中心医院".toList]

/-- Greedy-with-backtracking Han prefix of length 2..20 followed by a suffix
from the vocabulary; k counts the prefix length currently tried. -/
def hospTryAt (sfx : List Str) (t : Str) : Nat → Option (Str × Str)
  | 0 => none
  | 1 => none
  | k + 2 =>
    match matchLits sfx (t.drop (k + 2)) with
    | some (suf, rest) => some (t.take (k + 2) ++ suf, rest)
    | none => hospTryAt sfx t (k + 1)

/-- Hospital-name pattern of the report masker. -/
def hospMatchAt (sfx : List Str) (_ : Option Char) (t : Str) :
    Option (Str × Str × Str) :=
  let run := t.takeWhile isHan
  match hospTryAt sfx t (min run.length 20) with
  | some (m, rest) => some (m, m, rest)
  | none => none

/-- Birth-date labels. -/
def birthLabels : List Str := ["出生日期".toList, "生日".toList, "出生".toList]

/-- A year of the form (19|20) followed by two digits. -/
def parseYear (t : Str) : Option (Str × Str) :=
  match t with
  | c1 :: c2 :: c3 :: c4 :: rest =>
    if ((c1 = '1' && c2 = '9') || (c1 = '2' && c2 = '0')) && isDig c3 && isDig c4 then
      some ([c1, c2, c3, c4], rest)
    else none
  | _ => none

/-- One or two digits followed by one of the listed separators, greedy with
backtracking as the regex does. -/
def parse12Sep (seps : List Char) (t : Str) : Option (Str × Str) :=
  match t with
  | d1 :: d2 :: c3 :: rest =>
    if isDig d1 && isDig d2 && seps.contains c3 then some ([d1, d2, c3], rest)
    else if isDig d1 && seps.contains d2 then some ([d1, d2], c3 :: rest)
    else none
  | [d1, d2] =>
    if isDig d1 && seps.contains d2 then some ([d1, d2], [])
    else none
  | _ => none

/-- Optional date tail, first alternative: two digits, optionally two more. -/
def birthTailA (t : Str) : Option (Str × Str) :=
  match t with
  | d1 :: d2 :: rest =>
    if isDig d1 && isDig d2 then
      match rest with
      | d3 :: d4 :: rest2 =>
        if isDig d3 && isDig d4 then some ([d1, d2, d3, d4], rest2)
        else some ([d1, d2], rest)
      | _ => some ([d1, d2], rest)
    else none
  | _ => none

/-- Optional date tail, second alternative: separator, one or two digits,
separator, one or two digits, optional trailing day marker. -/
def birthTailB (t : Str) : Option (Str × Str) :=
  match t with
  | [] => none
  | c1 :: t1 =>
    if c1 = '-' || c1 = '/' || c1 = '年' then
      match parse12Sep ['-', '/', '月'] t1 with
      | some (part, t2) =>
        let dcount := min (t2.takeWhile isDig).length 2
        if dcount = 0 then none
        else
          let ds := t2.take dcount
          let t3 := t2.drop dcount
          match t3 with
          | d :: t4 =>
            if d = '日' then some (c1 :: (part ++ ds ++ [d]), t4)
            else some (c1 :: (part ++ ds), t3)
          | [] => some (c1 :: (part ++ ds), [])
      | none => none
    else none

/-- One label alternative of the patched birth-date pattern; the payload is
(whole match, captured prefix group, captured year). -/
def dmBirthTryLabel (lbl : Str) (t : Str) :
    Option ((Str × Str × Str) × Str × Str) :=
  if startsSeg lbl t then
    match t.drop lbl.length with
    | [] => none
    | c :: t1 =>
      if isColon c then
        let ws := t1.takeWhile isWs
        let t2 := t1.dropWhile isWs
        let nd := t2.takeWhile (fun d => !isDig d)
        let t3 := t2.dropWhile (fun d => !isDig d)
        match parseYear t3 with
        | some (yr, t4) =>
          let g1 := lbl ++ c :: ws
          let tail :=
            match birthTailA t4 with
            | some (ta, t5) => (ta, t5)
            | none =>
              match birthTailB t4 with
              | some (tb, t5) => (tb, t5)
              | none => (([] : Str), t4)
          let whole := g1 ++ nd ++ yr ++ tail.1
          some ((whole, g1, yr), whole, tail.2)
        | none => none
      else none
  else none

/-- Patched birth-date pattern: label alternation with backtracking. -/
def dmBirthMatchAt (_ : Option Char) (t : Str) :
    Option ((Str × Str × Str) × Str × Str) :=
  match dmBirthTryLabel "出生日期".toList t with
  | some r => some r
  | none =>
    match dmBirthTryLabel "生日".toList t with
    | some r => some r
    | none => dmBirthTryLabel "出生".toList t

/-- Address labels of the report masker. -/
def addrLabels : List Str := ["地址".toList, "住址".toList, "家庭住址".toList]

/-- Address pattern: label, colon, then 5 to 50 non-newline characters,
greedy. -/
def addrMatchAt (_ : Option Char) (t : Str) : Option (Str × Str × Str) :=
  match matchLits addrLabels t with
  | none => none
  | some (lbl, t1) =>
    match t1 with
    | [] => none
    | c :: t2 =>
      if isColon c then
        let run := t2.takeWhile (fun d => !(d = '\n'))
        let n := min run.length 50
        if n < 5 then none
        else
          let whole := lbl ++ c :: t2.take n
          some (whole, whole, t2.drop n)
      else none

/-- Name labels of the first name pattern. -/
def nameLabels1 : List Str := ["姓名".toList, "患者".toList, "病人".toList]

/-- First name pattern: label, colon, whitespace, 2 to 4 Han characters;
payload is (whole match, captured name). -/
def name1MatchAt (_ : Option Char) (t : Str) : Option ((Str × Str) × Str × Str) :=
  match matchLits nameLabels1 t with
  | none => none
  | some (lbl, t1) =>
    match t1 with
    | [] => none
    | c :: t2 =>
      if isColon c then
        let ws := t2.takeWhile isWs
        let t3 := t2.dropWhile isWs
        let run := t3.takeWhile isHan
        let n := min run.length 4
        if n < 2 then none
        else
          let nm := t3.take n
          let whole := lbl ++ c :: (ws ++ nm)
          some ((whole, nm), whole, t3.drop n)
      else none

/-- A capitalised Latin word: one uppercase letter then lowercase letters. -/
def parseWord (t : Str) : Option (Str × Str) :=
  match t with
  | [] => none
  | c :: t1 =>
    if isUpper c then
      let ls := t1.takeWhile isLower
      if ls.isEmpty then none
      else some (c :: ls, t1.drop ls.length)
    else none

/-- Second name pattern: patient label, colon, whitespace, a capitalised
Latin name of one or two words. -/
def name2MatchAt (_ : Option Char) (t : Str) : Option ((Str × Str) × Str × Str) :=
  if startsSeg "患者".toList t then
    match t.drop 2 with
    | [] => none
    | c :: t1 =>
      if isColon c then
        let ws := t1.takeWhile isWs
        let t2 := t1.dropWhile isWs
        match parseWord t2 with
        | some (w1, t3) =>
          let ws2 := t3.takeWhile isWs
          let t4 := t3.dropWhile isWs
          let opt :=
            if ws2.isEmpty then none
            else
              match parseWord t4 with
              | some (w2, t5) => some (ws2 ++ w2, t5)
              | none => none
          match opt with
          | some (ext, t5) =>
            let nm := w1 ++ ext
            let whole := "患者".toList ++ c :: (ws ++ nm)
            some ((whole, nm), whole, t5)
          | none =>
            let whole := "患者".toList ++ c :: (ws ++ w1)
            some ((whole, w1), whole, t3)
        | none => none
      else none
  else none

/-- All id-card matches of a text, leftmost and non-overlapping. -/
def idMatches (t : Str) : List Str := scanG idMatchAt (t.length + 1) none t

/-- All phone matches of a text. -/
def phoneMatches (t : Str) : List Str := scanG phoneMatchAt (t.length + 1) none t

/-- All admission-number matches of a text. -/
def admMatches (t : Str) : List Str := scanG admMatchAt (t.length + 1) none t

/-- All hospital-name matches of a text (report masker vocabulary). -/
def dmHospMatches (t : Str) : List Str :=
  scanG (hospMatchAt dmHospSuffixes) (t.length + 1) none t

/-- All birth-date matches of a text, with captured groups. -/
def dmBirthMatches (t : Str) : List (Str × Str × Str) :=
  scanG dmBirthMatchAt (t.length + 1) none t

/-- All address matches of a text. -/
def addrMatches (t : Str) : List Str := scanG addrMatchAt (t.length + 1) none t

/-- All matches of the first name pattern. -/
def nameMatches1 (t : Str) : List (Str × Str) :=
  scanG name1MatchAt (t.length + 1) none t

/-- All matches of the second name pattern. -/
def nameMatches2 (t : Str) : List (Str × Str) :=
  scanG name2MatchAt (t.length + 1) none t

/-- A run of n asterisks. -/
def starRepeat (n : Nat) : Str := List.replicate n '*'

/-- The label part before the first colon of a match. -/
def beforeColon (m : Str) : Str := m.takeWhile (fun c => !isColon c)

/-- re.sub of colon-whitespace-token by colon-whitespace-placeholder inside a
single name match (the placeholder branch of the name pass). -/
def subColonTok : Nat → Str → Str
  | 0, t => t
  | _ + 1, [] => []
  | fuel + 1, c :: ts =>
    if isColon c then
      let ws := ts.takeWhile isWs
      let t2 := ts.dropWhile isWs
      let tok := t2.takeWhile (fun d => !isWs d)
      if tok.isEmpty then c :: subColonTok fuel ts
      else c :: (ws ++ "[患者姓名]".toList ++ subColonTok fuel (t2.drop tok.length))
    else c :: subColonTok fuel ts

/-- One replacement step of the name pass, by mode. -/
def maskNameOne (mode : Mode) (acc : Str) (p : Str × Str) : Str :=
  match mode with
  | .remove => replaceAll acc p.1 []
  | .asterisk =>
    let nm := p.2
    let mn := nm.take 1 ++ starRepeat (nm.length - 1)
    replaceAll acc p.1 (replaceAll p.1 nm mn)
  | .placeholder => replaceAll acc p.1 (subColonTok (p.1.length + 1) p.1)

/-- DataMasker._mask_names: both name patterns in order, matches computed on
the text as it stands when each pattern starts. -/
def maskNames (mode : Mode) (t : Str) : Str :=
  let t1 := (nameMatches1 t).foldl (maskNameOne mode) t
  (nameMatches2 t1).foldl (maskNameOne mode) t1

/-- Replacement string of the id-card pass, by mode. -/
def idRepl (mode : Mode) (m : Str) : Str :=
  match mode with
  | .remove => []
  | .asterisk => m.take 3 ++ starRepeat (m.length - 5) ++ m.drop (m.length - 2)
  | .placeholder => "[身份证号]".toList

/-- The id-card pass of the patched _mask_by_pattern. -/
def maskIdPass (mode : Mode) (t : Str) : Str :=
  (idMatches t).foldl (fun acc m => replaceAll acc m (idRepl mode m)) t

/-- The admission-number pass (mode-independent in the patch). -/
def maskAdmPass (t : Str) : Str :=
  (admMatches t).foldl (fun acc m =>
    replaceAll acc m (beforeColon m ++ ':' :: "CODE".toList)) t

/-- Hospital pseudonym state of the patched report masker. -/
structure HospSt where
  mapping : List (Str × Str)
  counter : Nat
deriving DecidableEq, Repr

/-- Association lookup in a pseudonym mapping. -/
def lookupM : List (Str × Str) → Str → Option Str
  | [], _ => none
  | (k, v) :: rest, q => if k = q then some v else lookupM rest q

/-- Fuel-driven decimal numeral so that evaluation stays kernel-friendly. -/
def decReprAux : Nat → Nat → Str
  | 0, _ => []
  | fuel + 1, n =>
    if n < 10 then [Char.ofNat (48 + n)]
    else decReprAux fuel (n / 10) ++ [Char.ofNat (48 + n % 10)]

/-- Python str of a natural number. -/
def decRepr (n : Nat) : Str := decReprAux (n + 1) n

/-- Pseudonym suffix: the n-th letter for n through 26, then the decimal
numeral (the guarded chr-or-str computation shared by the splitter maskers). -/
def lblSuffix (n : Nat) : Str :=
  if n ≤ 26 then [Char.ofNat (64 + n)] else decRepr n

/-- Pseudonym for the n-th hospital: a letter through Z, then numerals. -/
def hospLabel (n : Nat) : Str := "hospital ".toList ++ lblSuffix n

/-- The hospital pass of the patched _mask_by_pattern: looks each match up in
the running mapping, extending it for first-seen names, and replaces. -/
def hospStep (p : HospSt × Str) (m : Str) : HospSt × Str :=
  match lookupM p.1.mapping m with
  | some lab => (p.1, replaceAll p.2 m lab)
  | none =>
    let n := p.1.counter + 1
    let lab := hospLabel n
    (⟨p.1.mapping ++ [(m, lab)], n⟩, replaceAll p.2 m lab)

/-- The hospital pass of the patched _mask_by_pattern. -/
def maskHospPass (st : HospSt) (t : Str) : HospSt × Str :=
  (dmHospMatches t).foldl hospStep (st, t)

/-- The birth-date pass of the patched _mask_by_pattern: keep label and year
only, appending the year marker. -/
def maskBirthPassDM (t : Str) : Str :=
  (dmBirthMatches t).foldl (fun acc pr =>
    replaceAll acc pr.1 (pr.2.1 ++ pr.2.2 ++ ['年'])) t

/-- Replacement string of the phone pass, by mode. -/
def phoneRepl (mode : Mode) (m : Str) : Str :=
  match mode with
  | .remove => []
  | .asterisk => m.take 3 ++ starRepeat 4 ++ m.drop (m.length - 4)
  | .placeholder => "[手机号]".toList

/-- The phone pass of the patched _mask_by_pattern. -/
def maskPhonePass (mode : Mode) (t : Str) : Str :=
  (phoneMatches t).foldl (fun acc m => replaceAll acc m (phoneRepl mode m)) t

/-- The address pass of the patched _mask_by_pattern (the fallback branch of
the mode switch; address has no entry in the patched placeholder table). -/
def addrRepl (mode : Mode) (m : Str) : Str :=
  match mode with
  | .remove => []
  | .asterisk => beforeColon m ++ ':' :: starRepeat 3
  | .placeholder => "[敏感信息]".toList

/-- The address pass of the patched _mask_by_pattern. -/
def maskAddrPass (mode : Mode) (t : Str) : Str :=
  (addrMatches t).foldl (fun acc m => replaceAll acc m (addrRepl mode m)) t

/-- DataMasker.mask_text after the unified patch: the name pass, then the
patched pattern passes in dictionary order id-card, admission, hospital,
birth date, phone, address.  The hospital mapping state threads through. -/
def dmMaskText (mode : Mode) (st : HospSt) (t : Str) : HospSt × Str :=
  if t.isEmpty then (st, t)
  else
    let t1 := maskNames mode t
    let t2 := maskIdPass mode t1
    let t3 := maskAdmPass t2
    let p := maskHospPass st t3
    let t4 := maskBirthPassDM p.2
    let t5 := maskPhonePass mode t4
    let t6 := maskAddrPass mode t5
    (p.1, t6)

/-! ## UnifiedMedicalMasker (medical_record_splitter.py) -/

/-- Python str.strip: whitespace removed from both ends. -/
def stripWs (t : Str) : Str :=
  ((t.dropWhile isWs).reverse.dropWhile isWs).reverse

/-- Name labels of the generic patient-field rewrite (no third label). -/
def nameLabels2 : List Str := ["姓名".toList, "患者".toList]

/-- The generic patient-field pattern: label, colon, whitespace, 2 to 4 Han
characters; payload keeps the label and the colon that was matched. -/
def genLabelMatchAt (t : Str) : Option ((Str × Char) × Str × Str) :=
  match matchLits nameLabels2 t with
  | none => none
  | some (lbl, t1) =>
    match t1 with
    | [] => none
    | c :: t2 =>
      if isColon c then
        let ws := t2.takeWhile isWs
        let t3 := t2.dropWhile isWs
        let run := t3.takeWhile isHan
        let n := min run.length 4
        if n < 2 then none
        else
          let nm := t3.take n
          some ((lbl, c), lbl ++ c :: (ws ++ nm), t3.drop n)
      else none

/-- re.sub of the generic patient-field pattern by label-colon-patient. -/
def subPatientLabels : Nat → Str → Str
  | 0, t => t
  | _ + 1, [] => []
  | fuel + 1, c :: ts =>
    match genLabelMatchAt (c :: ts) with
    | some ((lbl, col), _, rest) =>
      lbl ++ col :: ("patient".toList ++ subPatientLabels fuel rest)
    | none => c :: subPatientLabels fuel ts

/-- UnifiedMedicalMasker.mask_patient_name: extract the name from the first
label field when none is supplied, replace the name everywhere by the fixed
token, then rewrite every label field. -/
def uniMaskPatientName (t : Str) (explicitName : Option Str) : Str :=
  let pn : Option Str :=
    match explicitName with
    | some n => if n.isEmpty then (nameMatches1 t).head?.map (fun p => p.2) else some n
    | none => (nameMatches1 t).head?.map (fun p => p.2)
  let t1 :=
    match pn with
    | some n => replaceAll t n "patient".toList
    | none => t
  subPatientLabels (t1.length + 1) t1

/-- Hospital-name suffix vocabulary of the unified masker. -/
def uniHospSuffixes : List Str :=
  dmHospSuffixes ++ ["第一医院".toList, "第二医院".toList, "第三医院".toList]

/-- All hospital matches of the unified masker. -/
def uniHospMatches (t : Str) : List Str :=
  scanG (hospMatchAt uniHospSuffixes) (t.length + 1) none t

/-- The timestamp pattern YYYY-MM-DD HH:MM (whitespace-separated). -/
def dtMatchHere (t : Str) : Option (Str × Str) :=
  match takeCount isDig 4 t with
  | none => none
  | some (d1, t1) =>
    match t1 with
    | [] => none
    | c1 :: t2 =>
      if c1 = '-' then
        match takeCount isDig 2 t2 with
        | none => none
        | some (d2, t3) =>
          match t3 with
          | [] => none
          | c2 :: t4 =>
            if c2 = '-' then
              match takeCount isDig 2 t4 with
              | none => none
              | some (d3, t5) =>
                let ws := t5.takeWhile isWs
                let t6 := t5.dropWhile isWs
                if ws.isEmpty then none
                else
                  match takeCount isDig 2 t6 with
                  | none => none
                  | some (h1, t7) =>
                    match t7 with
                    | [] => none
                    | c3 :: t8 =>
                      if c3 = ':' then
                        match takeCount isDig 2 t8 with
                        | none => none
                        | some (h2, t9) =>
                          some (d1 ++ c1 :: (d2 ++ c2 :: (d3 ++ ws ++ h1 ++ c3 :: h2)), t9)
                      else none
            else none
      else none

/-- Index of the first timestamp occurrence anywhere in the text
(re.search, not line-anchored). -/
def firstDtIdxAux : Nat → Nat → Str → Option Nat
  | 0, _, _ => none
  | _ + 1, _, [] => none
  | fuel + 1, i, c :: ts =>
    match dtMatchHere (c :: ts) with
    | some _ => some i
    | none => firstDtIdxAux fuel (i + 1) ts

/-- Index of the first timestamp occurrence, if any. -/
def firstDtIdx (t : Str) : Option Nat := firstDtIdxAux (t.length + 1) 0 t

/-- First-seen deduplication, as the seen-set loops of the source do. -/
def dedupKeep (l : List Str) : List Str :=
  l.foldl (fun acc h => if acc.contains h then acc else acc ++ [h]) []

/-- State of UnifiedMedicalMasker.identify_hospitals. -/
structure UniHospSt where
  titleHospitals : List Str
  mapping : List (Str × Str)
  counter : Nat
  mainLabel : Option Str
deriving DecidableEq, Repr

/-- UnifiedMedicalMasker.identify_hospitals on a fresh masker: masthead
hospitals (before the first timestamp) are labelled first, then the
remaining first-seen hospitals. -/
def uniIdentifyHospitals (text : Str) : UniHospSt :=
  let titleText :=
    match firstDtIdx text with
    | some i => text.take i
    | none => text
  let titleH := dedupKeep (uniHospMatches titleText)
  let allH := dedupKeep (uniHospMatches text)
  let p1 := titleH.foldl
    (fun (p : List (Str × Str) × Nat) h =>
      (p.1 ++ [(h, hospLabel (p.2 + 1))], p.2 + 1)) ([], 0)
  let main := if titleH.isEmpty then none else lookupM p1.1 (titleH.headD [])
  let p2 := allH.foldl
    (fun (p : List (Str × Str) × Nat) h =>
      match lookupM p.1 h with
      | some _ => p
      | none => (p.1 ++ [(h, hospLabel (p.2 + 1))], p.2 + 1)) p1
  ⟨titleH, p2.1, p2.2, main⟩

/-- Stable insertion by descending key length (Python sorted with a length
key, reversed). -/
def insertByLen (x : Str × Str) : List (Str × Str) → List (Str × Str)
  | [] => [x]
  | y :: ys => if x.1.length ≤ y.1.length then y :: insertByLen x ys
               else x :: y :: ys

/-- Python sorted(items, key length, reverse): stable descending sort. -/
def sortByLenDesc : List (Str × Str) → List (Str × Str)
  | [] => []
  | x :: xs => insertByLen x (sortByLenDesc xs)

/-- UnifiedMedicalMasker.mask_hospitals: first-person hospital mentions are
rewritten to the masthead pseudonym, then every mapped name is replaced,
longest first. -/
def uniMaskHospitals (st : UniHospSt) (t : Str) : Str :=
  let t1 :=
    match st.mainLabel with
    | some lab => replaceAll (replaceAll t "我院".toList lab) "本院".toList lab
    | none => t
  (sortByLenDesc st.mapping).foldl (fun acc p => replaceAll acc p.1 p.2) t1

/-- One label alternative of the full birth-date pattern of the unified
masker: label, colon, whitespace, 4 digits, then separator-digit groups. -/
def uniBirthFullTry (lbl : Str) (t : Str) : Option ((Str × Str) × Str × Str) :=
  if startsSeg lbl t then
    match t.drop lbl.length with
    | [] => none
    | c :: t1 =>
      if isColon c then
        let ws := t1.takeWhile isWs
        let t2 := t1.dropWhile isWs
        match takeCount isDig 4 t2 with
        | some (yr, t3) =>
          match birthTailB t3 with
          | some (tb, t4) =>
            let whole := lbl ++ c :: (ws ++ yr ++ tb)
            some ((whole, yr), whole, t4)
          | none => none
        | none => none
      else none
  else none

/-- Full birth-date pattern with label alternation. -/
def uniBirthFullMatchAt (t : Str) : Option ((Str × Str) × Str × Str) :=
  match uniBirthFullTry "出生日期".toList t with
  | some r => some r
  | none =>
    match uniBirthFullTry "生日".toList t with
    | some r => some r
    | none => uniBirthFullTry "出生".toList t

/-- One label alternative of the compact birth-date pattern: label, colon,
whitespace, 8 digits; the captured year is the first 4. -/
def uniBirthShortTry (lbl : Str) (t : Str) : Option ((Str × Str) × Str × Str) :=
  if startsSeg lbl t then
    match t.drop lbl.length with
    | [] => none
    | c :: t1 =>
      if isColon c then
        let ws := t1.takeWhile isWs
        let t2 := t1.dropWhile isWs
        match takeCount isDig 8 t2 with
        | some (d8, t3) =>
          let whole := lbl ++ c :: (ws ++ d8)
          some ((whole, d8.take 4), whole, t3)
        | none => none
      else none
  else none

/-- Compact birth-date pattern with label alternation. -/
def uniBirthShortMatchAt (t : Str) : Option ((Str × Str) × Str × Str) :=
  match uniBirthShortTry "出生日期".toList t with
  | some r => some r
  | none =>
    match uniBirthShortTry "生日".toList t with
    | some r => some r
    | none => uniBirthShortTry "出生".toList t

/-- Positional re.sub of a birth-date pattern by label-colon-year-marker. -/
def subBirth (mAt : Str → Option ((Str × Str) × Str × Str)) :
    Nat → Str → Str
  | 0, t => t
  | _ + 1, [] => []
  | fuel + 1, c :: ts =>
    match mAt (c :: ts) with
    | some ((whole, yr), _, rest) =>
      beforeColon whole ++ '：' :: (yr ++ '年' :: subBirth mAt fuel rest)
    | none => c :: subBirth mAt fuel ts

/-- UnifiedMedicalMasker.mask_birth_date: the full pattern pass, then the
compact pattern pass. -/
def uniMaskBirthDate (t : Str) : Str :=
  let t1 := subBirth uniBirthFullMatchAt (t.length + 1) t
  subBirth uniBirthShortMatchAt (t1.length + 1) t1

/-- Excluded doctor words of the unified masker. -/
def uniExcludeDoctorWords : List Str :=
  ["主任".toList, "副主任".toList, "主治".toList, "住院".toList,
   "请输入".toList, "危重病例".toList, "医师首次".toList, "主任医师".toList,
   "副主任".toList, "机及随车".toList, "请选择".toList, "书写日期".toList,
   "记录内容".toList, "记录日期".toList, "签名日期".toList]

/-- Doctor/hospital pseudonym mapping state. -/
structure PseudoSt where
  mapping : List (Str × Str)
  counter : Nat
deriving DecidableEq, Repr

/-- Pseudonym of the n-th doctor. -/
def doctorLabel (n : Nat) : Str := "doctor".toList ++ lblSuffix n

/-- The body of the UnifiedMedicalMasker.identify_doctors loop for one
candidate name: exclusion filters, then first-seen insertion. -/
def uniAddDoctor (st : PseudoSt) (nm : Str) : PseudoSt :=
  if uniExcludeDoctorWords.contains nm then st
  else if hasSeg nm "病例".toList || hasSeg nm "首次".toList ||
      hasSeg nm "记录".toList || hasSeg nm "日期".toList then st
  else if nm.length < 2 then st
  else
    match lookupM st.mapping nm with
    | some _ => st
    | none => ⟨st.mapping ++ [(nm, doctorLabel (st.counter + 1))], st.counter + 1⟩

/-! ## MedicalDeIdentifier (admission_record_deidentifier.py) -/

/-- Verb tokens stripped from the front of an admission hospital match. -/
def admStripVerbs : List Str :=
  ["于".toList, "在".toList, "至".toList, "到".toList,
   "复习".toList, "前往".toList, "转入".toList, "转出".toList]

/-- Generic hospital words excluded by the admission deidentifier. -/
def admGenericWords : List Str :=
  ["我院".toList, "本院".toList, "贵院".toList, "医院".toList]

/-- The prefix-stripping loop of MedicalDeIdentifier.identify_hospitals. -/
def admCleanName (nm : Str) : Str :=
  admStripVerbs.foldl
    (fun n p => if startsSeg p n then stripWs (n.drop p.length) else n) nm

/-- The body of the MedicalDeIdentifier.identify_hospitals loop for one
matched name: note the unguarded letter computation 64 + counter. -/
def admAddHospital (st : PseudoSt) (raw : Str) : PseudoSt :=
  let nm := admCleanName (stripWs raw)
  if admGenericWords.contains nm then st
  else if nm.length < 5 then st
  else
    match lookupM st.mapping nm with
    | some _ => st
    | none =>
      ⟨st.mapping ++ [(nm, "hospital ".toList ++ [Char.ofNat (64 + (st.counter + 1))])],
        st.counter + 1⟩

/-! ## MedicalRecordSplitter segmentation (medical_record_splitter.py) -/

/-- The record-title keyword vocabulary, in source order. -/
def kwList : List Str :=
  ["转科（转入）记录".toList, "转科（转出）记录".toList, "转科(入)记录".toList,
   "转科(出)记录".toList, "转科（入）记录".toList, "转科（出）记录".toList,
   "危重病例副主任医师查房记录".toList, "危重病例主治医师查房记录".toList,
   "危重病例查房记录".toList, "主治医师查房记录".toList,
   "副主任医师查房记录".toList, "主任医师查房记录".toList,
   "危重病例主任医师查房记录".toList, "输血前记录".toList, "输血前评估".toList,
   "输血评估".toList, "输血前检查".toList, "危急值记录".toList,
   "危急值报告".toList, "危急值通知".toList, "危急值病程记录".toList,
   "术前评估".toList, "术前小结".toList, "术前讨论".toList,
   "手术风险评估表".toList, "术后首次病程记录".toList, "术后首次病程".toList,
   "术后记录".toList, "术后评估".toList, "手术风险评估表".toList,
   "手术记录".toList, "麻醉记录".toList, "麻醉术前访视".toList,
   "麻醉术前评估".toList, "会诊记录".toList, "抢救记录".toList,
   "转科记录".toList, "转入记录".toList, "转出记录".toList, "死亡记录".toList,
   "入院记录".toList, "出院记录".toList]

/-- Han numerals of the list-marker prefix. -/
def isHanNum (c : Char) : Bool := "一二三四五六七八九十".toList.contains c

/-- The optional numbered list-marker prefix of the keyword pattern. -/
def kwPrefixParse (t : Str) : Option (Str × Str) :=
  let ws1 := t.takeWhile isWs
  let t1 := t.dropWhile isWs
  let ds := t1.takeWhile isDig
  if !ds.isEmpty then
    match t1.drop ds.length with
    | c :: t2 =>
      if c = ')' || c = '）' || c = '.' || c = '、' then
        some (ws1 ++ ds ++ c :: t2.takeWhile isWs, t2.dropWhile isWs)
      else none
    | [] => none
  else
    let hs := t1.takeWhile isHanNum
    if !hs.isEmpty then
      match t1.drop hs.length with
      | c :: t2 =>
        if c = '、' || c = '.' then
          some (ws1 ++ hs ++ c :: t2.takeWhile isWs, t2.dropWhile isWs)
        else none
      | [] => none
    else none

/-- The keyword core: optional emphasis, keyword, optional emphasis, trailing
whitespace and optional colon; returns (consumed, keyword, rest). -/
def kwCore (t : Str) : Option (Str × Str × Str) :=
  let p1 := if startsSeg "**".toList t then ("**".toList, t.drop 2) else ([], t)
  match matchLits kwList p1.2 with
  | none => none
  | some (kw, t2) =>
    let p2 := if startsSeg "**".toList t2 then ("**".toList, t2.drop 2) else ([], t2)
    let ws := p2.2.takeWhile isWs
    let t4 := p2.2.dropWhile isWs
    match t4 with
    | c :: t5 =>
      if isColon c then some (p1.1 ++ kw ++ p2.1 ++ ws ++ [c], kw, t5)
      else some (p1.1 ++ kw ++ p2.1 ++ ws, kw, t4)
    | [] => some (p1.1 ++ kw ++ p2.1 ++ ws, kw, [])

/-- The full keyword-title pattern: optional numbered prefix, then the core,
with regex backtracking to the bare core. -/
def kwMatchHere (t : Str) : Option (Str × Str × Str) :=
  match kwPrefixParse t with
  | some (pre, t1) =>
    match kwCore t1 with
    | some (core, kw, rest) => some (pre ++ core, kw, rest)
    | none => kwCore t
  | none => kwCore t

/-- Multiline boundary scan: offsets of timestamp-header matches at line
starts, leftmost and non-overlapping. -/
def dtStartsAux : Nat → Bool → Nat → Str → List Nat
  | 0, _, _, _ => []
  | _ + 1, _, _, [] => []
  | fuel + 1, atLS, i, c :: ts =>
    if atLS then
      match dtMatchHere (c :: ts) with
      | some (m, rest) =>
        i :: dtStartsAux fuel (m.getLast? = some '\n') (i + m.length) rest
      | none => dtStartsAux fuel (c = '\n') (i + 1) ts
    else dtStartsAux fuel (c = '\n') (i + 1) ts

/-- Offsets of timestamp-header boundaries. -/
def dtStarts (t : Str) : List Nat := dtStartsAux (t.length + 1) true 0 t

/-- Multiline boundary scan for keyword-title headers. -/
def kwStartsAux : Nat → Bool → Nat → Str → List Nat
  | 0, _, _, _ => []
  | _ + 1, _, _, [] => []
  | fuel + 1, atLS, i, c :: ts =>
    if atLS then
      match kwMatchHere (c :: ts) with
      | some (m, _, rest) =>
        i :: kwStartsAux fuel (m.getLast? = some '\n') (i + m.length) rest
      | none => kwStartsAux fuel (c = '\n') (i + 1) ts
    else kwStartsAux fuel (c = '\n') (i + 1) ts

/-- Offsets of keyword-title boundaries. -/
def kwStarts (t : Str) : List Nat := kwStartsAux (t.length + 1) true 0 t

/-- Insertion into a strictly sorted list, discarding duplicates. -/
def insertSortedNat (x : Nat) : List Nat → List Nat
  | [] => [x]
  | y :: ys =>
    if x < y then x :: y :: ys
    else if x = y then y :: ys
    else y :: insertSortedNat x ys

/-- sorted(set(...)): strictly ascending, deduplicated. -/
def sortedDedup (l : List Nat) : List Nat := l.foldr insertSortedNat []

/-- The deduplicated, sorted union of both boundary detectors. -/
def computeStarts (text : Str) : List Nat :=
  sortedDedup (dtStarts text ++ kwStarts text)

/-- Consecutive boundary pairs, the last one closed by the text length. -/
def pairUp : List Nat → Nat → List (Nat × Nat)
  | [], _ => []
  | [s], n => [(s, n)]
  | s :: s2 :: rest, n => (s, s2) :: pairUp (s2 :: rest) n

/-- The character span of one segment. -/
def sliceSpan (text : Str) (p : Nat × Nat) : Str :=
  (text.drop p.1).take (p.2 - p.1)

/-- A parsed record: the datetime header or the no-timestamp marker, the
record type, the body, and the raw stripped segment. -/
structure MedRec where
  datetime : Str
  rtype : Str
  content : Str
  rawContent : Str
deriving DecidableEq, Repr

/-- The record-header parse: a leading timestamp and the stripped body. -/
def parseDtHead (seg : Str) : Option (Str × Str) :=
  match dtMatchHere seg with
  | some (m, rest) => some (stripWs m, stripWs rest)
  | none => none

/-- re.search for an emphasis-wrapped title anywhere in the body. -/
def starSearch : Nat → Str → Option Str
  | 0, _ => none
  | _ + 1, [] => none
  | fuel + 1, c :: ts =>
    if startsSeg "**".toList (c :: ts) then
      let body := (ts.drop 1).takeWhile (fun d => !(d = '*'))
      if !body.isEmpty && startsSeg "**".toList ((ts.drop 1).drop body.length) then
        some body
      else starSearch fuel ts
    else starSearch fuel ts

/-- The record type of a segment body: emphasis-wrapped title, else the
keyword match of the first line, else the generic type. -/
def recType (content : Str) : Str :=
  match starSearch (content.length + 1) content with
  | some b => stripWs b
  | none =>
    let fl := stripWs (content.takeWhile (fun c => !(c = '\n')))
    match kwMatchHere fl with
    | some (_, kw, _) => kw
    | none => "病程记录".toList

/-- One record from one segment span (masking disabled, as the datetime and
type fields are unaffected by masking). -/
def buildRecord (seg : Str) : MedRec :=
  let dc :=
    match parseDtHead seg with
    | some (m, c) => (m, c)
    | none => (([] : Str), seg)
  { datetime := if dc.1.isEmpty then "无时间戳".toList else dc.1
    rtype := recType dc.2
    content := dc.2
    rawContent := seg }

/-- The record list before merging: one record per nonempty stripped span. -/
def buildRecords (text : Str) : List MedRec :=
  (pairUp (computeStarts text) text.length).foldr
    (fun p acc =>
      let seg := stripWs (sliceSpan text p)
      if seg.isEmpty then acc else buildRecord seg :: acc) []

/-- The type normalisation of the merge pass. -/
def normType (t : Str) : Str :=
  stripWs (t.map (fun c =>
    if c = '（' then '(' else if c = '）' then ')'
    else if c = '　' then ' ' else c))

/-- re.sub of whitespace runs by one space. -/
def wsNorm : Nat → Str → Str
  | 0, t => t
  | _ + 1, [] => []
  | fuel + 1, c :: ts =>
    if isWs c then ' ' :: wsNorm fuel (ts.dropWhile isWs)
    else c :: wsNorm fuel ts

/-- The title-only classifier of the merge pass.  The template-field branch
of the source is subsumed by its own startswith guard (the all-quantified
check there ranges over an empty list), so the classifier accepts any
normalised body of at most 120 characters that starts with the type. -/
def isTitleOnly (r : MedRec) : Bool :=
  let t := normType r.rtype
  if t.isEmpty then false
  else
    let c := stripWs r.content
    let cn := stripWs (c.filter (fun d => !(d = '\r')))
    if cn.isEmpty then true
    else if normType cn = t then true
    else if cn.length ≤ 120 then
      let tmpN := normType (wsNorm (cn.length + 1) cn)
      if tmpN = t then true
      else if startsSeg t tmpN then true
      else false
    else false

/-- Default record types that a folded title may overwrite. -/
def genericTypes : List Str :=
  ["病程记录".toList, "查房记录".toList, "记录".toList, "病程".toList]

/-- Folding a title-only record into its successor. -/
def foldInto (cur nxt : MedRec) : MedRec :=
  let curT := normType cur.rtype
  let nxtT := normType nxt.rtype
  let rt := if nxtT.isEmpty || genericTypes.contains nxtT then cur.rtype else nxt.rtype
  let nc := nxt.content.dropWhile isWs
  let content :=
    if !curT.isEmpty && !(startsSeg curT (normType (nc.take (curT.length + 4)))) then
      stripWs (curT ++ '\n' :: nc)
    else nxt.content
  { nxt with rtype := rt, content := content }

/-- The merge condition for the record under the cursor. -/
def mergeCond (cur : MedRec) : Bool :=
  cur.datetime = "无时间戳".toList && !(normType cur.rtype).isEmpty && isTitleOnly cur

/-- The single left-to-right merge pass over the record list. -/
def mergeRecsF : Nat → List MedRec → List MedRec
  | 0, rs => rs
  | _ + 1, [] => []
  | _ + 1, [r] => [r]
  | fuel + 1, r1 :: r2 :: rest =>
    if mergeCond r1 then mergeRecsF fuel (foldInto r1 r2 :: rest)
    else r1 :: mergeRecsF fuel (r2 :: rest)

/-- The merge pass. -/
def mergeRecs (rs : List MedRec) : List MedRec := mergeRecsF (rs.length + 1) rs

/-- MedicalRecordSplitter.parse_medical_records (masking disabled). -/
def parseMedicalRecords (text : Str) : List MedRec :=
  mergeRecs (buildRecords text)

/-- MedicalRecordSplitter.process: parse, then fail loudly on an empty
record list before any document is produced. -/
def processRecords (text : Str) : Except Str (List MedRec) :=
  let rs := parseMedicalRecords text
  if rs.isEmpty then Except.error "未找到任何病程记录!请检查文档格式是否正确。".toList
  else Except.ok rs

/-- The datetime format of a parsed header: date, whitespace, time. -/
def isDtString (s : Str) : Bool :=
  match dtMatchHere s with
  | some (m, rest) => rest.isEmpty && m = s
  | none => false

/-- Decimal value of a digit string (used to invert decRepr). -/
def valNum (s : Str) : Nat := s.foldl (fun a c => 10 * a + (c.toNat - 48)) 0

/-! ## Concrete instances used by the claim checks -/

/-- Fifteen ones: a valid 15-digit id-number body. -/
def onesId : Str := List.replicate 15 '1'

/-- Fifteen twos: a second valid 15-digit id-number body. -/
def twosId : Str := List.replicate 15 '2'

/-- An input on which remove-mode masking splices a matched id back
together: deleting the second id joins the seven and eight ones around it
into a literal copy of the first id. -/
def spliceInput : Str :=
  ", ".toList ++ onesId ++ " ,".toList ++ List.replicate 7 '1' ++ twosId ++
    List.replicate 8 '1' ++ ", ".toList ++ twosId ++ " ,".toList

/-- Twenty-seven distinct hospital names for the admission deidentifier. -/
def admNames27 : List Str :=
  "一二三四五六七八九十甲乙丙丁戊己庚辛壬癸子丑寅卯辰巳午".toList.map
    (fun c => c :: "人民医院".toList)

/-- A title-only record with no successor. -/
def titleOnlyRec : MedRec :=
  ⟨"无时间戳".toList, "术前小结".toList, "术前小结".toList, "术前小结".toList⟩

/-- A substantive successor record. -/
def followRec : MedRec :=
  ⟨"2024-01-01 10:00".toList, "病程记录".toList, "病情稳定".toList,
    "病情稳定".toList⟩

/-- A one-record input text for the datetime check. -/
def wText : Str := "2024-01-01 10:00 查房".toList

/-- The record parsed from that text. -/
def wRec : MedRec :=
  ⟨"2024-01-01 10:00".toList, "病程记录".toList, "查房".toList,
    "2024-01-01 10:00 查房".toList⟩

/-! ## Occurrence and replacement lemmas -/

theorem startsSeg_iff {p t : Str} : startsSeg p t = true ↔ ∃ b, t = p ++ b := by
  induction p generalizing t with
  | nil => simp [startsSeg]
  | cons c ps ih =>
    cases t with
    | nil => simp [startsSeg]
    | cons d ts =>
      simp only [startsSeg, Bool.and_eq_true, beq_iff_eq, ih]
      constructor
      · rintro ⟨rfl, b, rfl⟩; exact ⟨b, rfl⟩
      · rintro ⟨b, hb⟩
        cases hb
        exact ⟨rfl, b, rfl⟩

theorem hasSeg_iff {t s : Str} : hasSeg t s = true ↔ Occurs s t := by
  induction t with
  | nil =>
    simp only [hasSeg, startsSeg_iff, Occurs]
    constructor
    · rintro ⟨b, hb⟩
      have hs : s = [] ∧ b = [] := by simpa using hb.symm
      exact ⟨[], [], by simp [hs.1, hs.2]⟩
    · rintro ⟨a, b, h⟩
      have h3 : a = [] ∧ s = [] ∧ b = [] := by simpa using h.symm
      exact ⟨[], by simp [h3.2.1]⟩
  | cons c ts ih =>
    simp only [hasSeg, Bool.or_eq_true, startsSeg_iff, ih]
    constructor
    · rintro (⟨b, hb⟩ | h)
      · exact ⟨[], b, by simpa using hb⟩
      · obtain ⟨a, b, rfl⟩ := h
        exact ⟨c :: a, b, rfl⟩
    · rintro ⟨a, b, h⟩
      cases a with
      | nil => exact Or.inl ⟨b, by simpa using h⟩
      | cons x a' =>
        have h' : c = x ∧ ts = a' ++ s ++ b := by simpa using h
        exact Or.inr ⟨a', b, h'.2⟩

theorem occurs_cons {s : Str} {c : Char} {t : Str} :
    Occurs s (c :: t) ↔ (∃ b, c :: t = s ++ b) ∨ Occurs s t := by
  constructor
  · rintro ⟨a, b, h⟩
    cases a with
    | nil => exact Or.inl ⟨b, by simpa using h⟩
    | cons x a' =>
      have h' : c = x ∧ t = a' ++ s ++ b := by simpa using h
      exact Or.inr ⟨a', b, h'.2⟩
  · rintro (⟨b, hb⟩ | ⟨a, b, rfl⟩)
    · exact ⟨[], b, by simpa using hb⟩
    · exact ⟨c :: a, b, rfl⟩

theorem occurs_append_left {s a : Str} (b : Str) (h : Occurs s a) :
    Occurs s (a ++ b) := by
  obtain ⟨x, y, rfl⟩ := h
  exact ⟨x, y ++ b, by simp⟩

theorem occurs_append_right {s b : Str} (a : Str) (h : Occurs s b) :
    Occurs s (a ++ b) := by
  obtain ⟨x, y, rfl⟩ := h
  exact ⟨a ++ x, y, by simp⟩

theorem occurs_of_occurs_drop {s t : Str} {n : Nat}
    (h : Occurs s (List.drop n t)) : Occurs s t := by
  have := occurs_append_right (s := s) (List.take n t) h
  simpa using this

/-- If every character of s satisfies C while no character of r does, an
occurrence of s in r ++ w lies entirely inside w. -/
theorem occurs_skip_left {s r w : Str} {C : Char → Bool}
    (hs : s ≠ []) (hsC : s.all C = true) (hrC : r.all (fun c => !C c) = true)
    (h : Occurs s (r ++ w)) : Occurs s w := by
  induction r with
  | nil => simpa using h
  | cons c r' ih =>
    have hr' : r'.all (fun c => !C c) = true := by
      simp only [List.all_cons, Bool.and_eq_true] at hrC
      exact hrC.2
    have hcC : C c = false := by
      simp only [List.all_cons, Bool.and_eq_true, Bool.not_eq_true'] at hrC
      exact hrC.1
    have h' : Occurs s (c :: (r' ++ w)) := by simpa using h
    rcases occurs_cons.mp h' with ⟨b, hb⟩ | h2
    · cases s with
      | nil => exact absurd rfl hs
      | cons x s' =>
        have hx : x = c := by simpa using congrArg (fun l => l.head?) hb.symm
        have hxC : C x = true := by
          simp only [List.all_cons, Bool.and_eq_true] at hsC
          exact hsC.1
        rw [hx] at hxC
        rw [hcC] at hxC
        exact absurd hxC (by simp)
    · exact ih hr' h2

/-- Bounding lemma: a fully-C string laid out as a prefix of v ++ r ++ w with
r nonempty and C-free cannot reach into r. -/
theorem allC_seg_le {C : Char → Bool} {r w : Str}
    (hrC : r.all (fun c => !C c) = true) (hr : r ≠ []) :
    ∀ (p v b : Str), p.all C = true → v ++ r ++ w = p ++ b →
      p.length ≤ v.length := by
  intro p
  induction p with
  | nil => intro v b _ _; simp
  | cons x p' ih =>
    intro v b hpC heq
    cases v with
    | nil =>
      cases r with
      | nil => exact absurd rfl hr
      | cons c r' =>
        have hx : c = x := by simpa using congrArg (fun l => l.head?) heq
        have hcC : C c = false := by
          simp only [List.all_cons, Bool.and_eq_true, Bool.not_eq_true'] at hrC
          exact hrC.1
        have hxC : C x = true := by
          simp only [List.all_cons, Bool.and_eq_true] at hpC
          exact hpC.1
        rw [hx, hxC] at hcC
        simp at hcC
    | cons d v' =>
      have hpair : d = x ∧ v' ++ r ++ w = p' ++ b := by simpa using heq
      have hp' : p'.all C = true := by
        simp only [List.all_cons, Bool.and_eq_true] at hpC
        exact hpC.2
      have := ih v' b hp' hpair.2
      simpa using Nat.succ_le_succ this

/-- Occurrences of a fully-C string in v ++ r ++ w with r nonempty and C-free
lie entirely inside v or entirely inside w. -/
theorem occurs_split_mid {s v r w : Str} {C : Char → Bool}
    (hs : s ≠ []) (hsC : s.all C = true)
    (hrC : r.all (fun c => !C c) = true) (hr : r ≠ [])
    (h : Occurs s (v ++ r ++ w)) : Occurs s v ∨ Occurs s w := by
  induction v with
  | nil =>
    right
    exact occurs_skip_left hs hsC hrC (by simpa using h)
  | cons c v' ih =>
    have h' : Occurs s (c :: (v' ++ r ++ w)) := by simpa using h
    rcases occurs_cons.mp h' with ⟨b, hb⟩ | h2
    · -- s sits at the very front; show it stays within c :: v'
      cases s with
      | nil => exact absurd rfl hs
      | cons x s' =>
        have hx : c = x ∧ v' ++ r ++ w = s' ++ b := by simpa using hb
        have hs'C : s'.all C = true := by
          simp only [List.all_cons, Bool.and_eq_true] at hsC
          exact hsC.2
        have hlen : s'.length ≤ v'.length := allC_seg_le hrC hr s' v' b hs'C hx.2
        have h3 : List.take s'.length v' = s' := by
          have h1 := congrArg (List.take s'.length) hx.2
          rw [List.append_assoc] at h1
          rw [List.take_append_of_le_length hlen,
              List.take_append_of_le_length (Nat.le_refl s'.length),
              List.take_length] at h1
          exact h1
        have hseg : v' = s' ++ List.drop s'.length v' := by
          conv_lhs => rw [← List.take_append_drop s'.length v']
          rw [h3]
        left
        refine ⟨[], List.drop s'.length v', ?_⟩
        simp only [List.nil_append, List.cons_append]
        exact congrArg₂ (· :: ·) hx.1 hseg
    · rcases ih h2 with hv | hw
      · exact Or.inl (occurs_cons.mpr (Or.inr hv))
      · exact Or.inr hw

/-- Replacement with a C-free nonempty replacement string cannot create an
occurrence of a fully-C string: any occurrence in the result, extended to the
left by arbitrary context v, pulls back to the unreplaced text. -/
theorem occurs_repAll_pull {s p r : Str} {C : Char → Bool}
    (hs : s ≠ []) (hsC : s.all C = true)
    (hrC : r.all (fun c => !C c) = true) (hr : r ≠ []) :
    ∀ fuel t v, Occurs s (v ++ repAll fuel t p r) → Occurs s (v ++ t) := by
  intro fuel
  induction fuel with
  | zero => intro t v h; simpa [repAll] using h
  | succ n ih =>
    intro t v h
    cases t with
    | nil => simpa [repAll] using h
    | cons c ts =>
      by_cases hg : (!p.isEmpty && startsSeg p (c :: ts)) = true
      · rw [repAll, if_pos hg] at h
        rw [← List.append_assoc] at h
        rcases occurs_split_mid hs hsC hrC hr h with hv | hw
        · exact occurs_append_left _ hv
        · have h1 := ih (List.drop (p.length - 1) ts) [] (by simpa using hw)
          have h2 : Occurs s (List.drop (p.length - 1) ts) := by simpa using h1
          exact occurs_append_right v (occurs_cons.mpr (Or.inr (occurs_of_occurs_drop h2)))
      · rw [repAll, if_neg hg] at h
        rw [List.append_cons] at h
        have h1 := ih ts (v ++ [c]) h
        rw [List.append_cons v c ts]
        exact h1

/-- A fully-C initial segment of the output of repAll with a nonempty C-free
replacement is an initial segment of the input text. -/
theorem allC_front_repAll {p r : Str} {C : Char → Bool}
    (hrC : r.all (fun c => !C c) = true) (hr : r ≠ []) :
    ∀ fuel t σ b, σ.all C = true → repAll fuel t p r = σ ++ b →
      ∃ b2, t = σ ++ b2 := by
  intro fuel
  induction fuel with
  | zero => intro t σ b _ h; exact ⟨b, by simpa [repAll] using h⟩
  | succ n ih =>
    intro t σ b hσ h
    cases t with
    | nil =>
      have hσn : σ = [] := by
        have : ([] : Str) = σ ++ b := by simpa [repAll] using h
        exact (List.append_eq_nil.mp this.symm).1
      exact ⟨[], by simp [hσn]⟩
    | cons c ts =>
      by_cases hg : (!p.isEmpty && startsSeg p (c :: ts)) = true
      · rw [repAll, if_pos hg] at h
        cases σ with
        | nil => exact ⟨c :: ts, rfl⟩
        | cons y σ' =>
          cases r with
          | nil => exact absurd rfl hr
          | cons z r' =>
            have hz : z = y := by simpa using congrArg List.head? h
            have hzC : C z = false := by
              simp only [List.all_cons, Bool.and_eq_true, Bool.not_eq_true'] at hrC
              exact hrC.1
            have hyC : C y = true := by
              simp only [List.all_cons, Bool.and_eq_true] at hσ
              exact hσ.1
            rw [hz, hyC] at hzC
            simp at hzC
      · rw [repAll, if_neg hg] at h
        cases σ with
        | nil => exact ⟨c :: ts, rfl⟩
        | cons y σ' =>
          have hy : c = y ∧ repAll n ts p r = σ' ++ b := by simpa using h
          have hσ' : σ'.all C = true := by
            simp only [List.all_cons, Bool.and_eq_true] at hσ
            exact hσ.2
          obtain ⟨b2, hb2⟩ := ih ts σ' b hσ' hy.2
          exact ⟨b2, by simp [hy.1, hb2]⟩

/-- Replacing every leftmost occurrence of a fully-C pattern s by a nonempty
C-free replacement leaves a text with no occurrence of s at all. -/
theorem not_occurs_repAll_self {s r : Str} {C : Char → Bool}
    (hs : s ≠ []) (hsC : s.all C = true)
    (hrC : r.all (fun c => !C c) = true) (hr : r ≠ []) :
    ∀ fuel t, t.length ≤ fuel → ¬ Occurs s (repAll fuel t s r) := by
  intro fuel
  induction fuel with
  | zero =>
    intro t hlen hocc
    have ht : t = [] := List.length_eq_zero.mp (Nat.le_zero.mp hlen)
    rw [ht] at hocc
    obtain ⟨a, b, h⟩ := hocc
    have h3 : a = [] ∧ s = [] ∧ b = [] := by simpa [repAll] using h.symm
    exact hs h3.2.1
  | succ n ih =>
    intro t hlen hocc
    cases t with
    | nil =>
      obtain ⟨a, b, h⟩ := hocc
      have h3 : a = [] ∧ s = [] ∧ b = [] := by simpa [repAll] using h.symm
      exact hs h3.2.1
    | cons c ts =>
      by_cases hg : (!s.isEmpty && startsSeg s (c :: ts)) = true
      · rw [repAll, if_pos hg] at hocc
        have h2 : Occurs s (repAll n (List.drop (s.length - 1) ts) s r) :=
          occurs_skip_left hs hsC hrC hocc
        have hlen2 : (List.drop (s.length - 1) ts).length ≤ n := by
          have h4 : ts.length ≤ n := by simpa using hlen
          have := List.length_drop (s.length - 1) ts
          omega
        exact ih _ hlen2 h2
      · rw [repAll, if_neg hg] at hocc
        rcases occurs_cons.mp hocc with ⟨b, hb⟩ | h2
        · -- s starts at the front of the output, so s starts the input too,
          -- contradicting the failed guard
          cases s with
          | nil => exact hs rfl
          | cons x s' =>
            have hx : c = x ∧ repAll n ts (x :: s') r = s' ++ b := by simpa using hb
            have hs'C : s'.all C = true := by
              simp only [List.all_cons, Bool.and_eq_true] at hsC
              exact hsC.2
            obtain ⟨b2, hb2⟩ := allC_front_repAll hrC hr n ts s' b hs'C hx.2
            apply hg
            have hss : startsSeg (x :: s') (c :: ts) = true := by
              refine startsSeg_iff.mpr ⟨b2, ?_⟩
              simp only [List.cons_append]
              exact congrArg₂ (· :: ·) hx.1 hb2
            simp [hss]
        · exact ih ts (by simpa using hlen) h2

/-- occurs_repAll_pull with empty left context. -/
theorem occurs_of_occurs_replaceAll {s p r t : Str} {C : Char → Bool}
    (hs : s ≠ []) (hsC : s.all C = true)
    (hrC : r.all (fun c => !C c) = true) (hr : r ≠ [])
    (h : Occurs s (replaceAll t p r)) : Occurs s t := by
  have h1 := occurs_repAll_pull hs hsC hrC hr (t.length + 1) t [] (by simpa using h)
  simpa using h1

/-- replaceAll of the pattern itself leaves no occurrence of the pattern. -/
theorem not_occurs_replaceAll_self {s r t : Str} {C : Char → Bool}
    (hs : s ≠ []) (hsC : s.all C = true)
    (hrC : r.all (fun c => !C c) = true) (hr : r ≠ []) :
    ¬ Occurs s (replaceAll t s r) :=
  not_occurs_repAll_self hs hsC hrC hr (t.length + 1) t (Nat.le_succ t.length)

/-! ## C1: the placeholder id pass eliminates every matched id -/

/-- Every payload of the scan driver comes from one matcher success. -/
theorem scanG_mem {α : Type} {mAt : Option Char → Str → Option (α × Str × Str)} :
    ∀ (fuel : Nat) (prev : Option Char) (t : Str) (a : α),
      a ∈ scanG mAt fuel prev t → ∃ p u w r, mAt p u = some (a, w, r) := by
  intro fuel
  induction fuel with
  | zero => intro prev t a h; simp [scanG] at h
  | succ n ih =>
    intro prev t a h
    cases t with
    | nil => simp [scanG] at h
    | cons c ts =>
      rw [scanG] at h
      cases hm : mAt prev (c :: ts) with
      | some res =>
        rw [hm] at h
        obtain ⟨a0, w, r⟩ := res
        simp only [List.mem_cons] at h
        rcases h with h1 | h2
        · subst h1
          exact ⟨prev, c :: ts, w, r, hm⟩
        · exact ih _ _ _ h2
      | none =>
        rw [hm] at h
        exact ih _ _ _ h

/-- Facts recovered from a takeCount success. -/
theorem takeCount_eq {p : Char → Bool} {n : Nat} {t a r : Str}
    (h : takeCount p n t = some (a, r)) :
    a.length = n ∧ a.all p = true ∧ t = a ++ r := by
  unfold takeCount at h
  by_cases hg : ((t.take n).length = n && (t.take n).all p) = true
  · rw [if_pos hg] at h
    simp only [Option.some.injEq, Prod.mk.injEq] at h
    obtain ⟨ha, hr⟩ := h
    simp only [Bool.and_eq_true, decide_eq_true_eq] at hg
    subst ha; subst hr
    exact ⟨hg.1, hg.2, (List.take_append_drop n t).symm⟩
  · rw [if_neg hg] at h
    exact absurd h (by simp)

/-- Digits are id characters. -/
theorem all_isIdC_of_all_isDig {a : Str} (h : a.all isDig = true) :
    a.all isIdC = true := by
  rw [List.all_eq_true] at h ⊢
  intro c hc
  have := h c hc
  simp only [isIdC]
  simp [this]

/-- Shape of an id-card match: nonempty and made of id characters. -/
theorem idMatchAt_shape {p : Option Char} {u : Str} {m w r : Str}
    (h : idMatchAt p u = some (m, w, r)) : m ≠ [] ∧ m.all isIdC = true := by
  unfold idMatchAt at h
  split at h
  · split at h
    · rename_i m15 r15 h15
      obtain ⟨hlen, hall, _⟩ := takeCount_eq h15
      split at h
      · simp only [Option.some.injEq, Prod.mk.injEq] at h
        obtain ⟨hm, _⟩ := h
        subst hm
        refine ⟨?_, all_isIdC_of_all_isDig hall⟩
        intro hnil
        rw [hnil] at hlen
        simp at hlen
      · split at h
        · rename_i m17 r17 h17
          obtain ⟨hlen17, hall17, _⟩ := takeCount_eq h17
          split at h
          · rename_i c18 rest2
            split at h
            · rename_i hg
              simp only [Option.some.injEq, Prod.mk.injEq] at h
              obtain ⟨hm, _⟩ := h
              subst hm
              simp only [Bool.and_eq_true] at hg
              constructor
              · simp
              · rw [List.all_append]
                have h1 := all_isIdC_of_all_isDig hall17
                simp [h1, hg.1]
            · exact absurd h (by simp)
          · exact absurd h (by simp)
        · exact absurd h (by simp)
    · exact absurd h (by simp)
  · exact absurd h (by simp)

/-- Replace-all folding with C-free replacements preserves absence. -/
theorem foldRep_pres {s : Str} {C : Char → Bool} {rep : Str → Str}
    (hs : s ≠ []) (hsC : s.all C = true)
    (hrep : ∀ m, (rep m).all (fun c => !C c) = true ∧ rep m ≠ []) :
    ∀ (ms : List Str) (t : Str), ¬ Occurs s t →
      ¬ Occurs s (ms.foldl (fun acc m => replaceAll acc m (rep m)) t) := by
  intro ms
  induction ms with
  | nil => intro t h; simpa using h
  | cons m rest ih =>
    intro t h
    rw [List.foldl_cons]
    apply ih
    intro hocc
    exact h (occurs_of_occurs_replaceAll hs hsC (hrep m).1 (hrep m).2 hocc)

/-- Replace-all folding over a match list of C-strings removes them all. -/
theorem foldRep_kills {C : Char → Bool} {rep : Str → Str}
    (hrep : ∀ m, (rep m).all (fun c => !C c) = true ∧ rep m ≠ []) :
    ∀ (ms : List Str) (t : Str), (∀ m ∈ ms, m ≠ [] ∧ m.all C = true) →
      ∀ s ∈ ms,
        ¬ Occurs s (ms.foldl (fun acc m => replaceAll acc m (rep m)) t) := by
  intro ms
  induction ms with
  | nil => intro t _ s hs; simp at hs
  | cons m rest ih =>
    intro t hall s hs
    rw [List.foldl_cons]
    rcases List.mem_cons.mp hs with rfl | hs'
    · have hm := hall s (by simp)
      exact foldRep_pres hm.1 hm.2 hrep rest _
        (not_occurs_replaceAll_self hm.1 hm.2 (hrep s).1 (hrep s).2)
    · exact ih _ (fun x hx => hall x (by simp [hx])) s hs'

/-- C1, amended: in placeholder mode, the national-ID pass of
DataMasker.mask_text leaves no literal occurrence of any id matched in the
pass input (whereas in remove mode a deletion can splice one back, see the
counterexample). -/
theorem c1_placeholder_id_pass_clean :
    ∀ (t s : Str), s ∈ idMatches t →
      ¬ Occurs s (maskIdPass Mode.placeholder t) := by
  intro t s hs
  have hrep : ∀ m : Str,
      (idRepl Mode.placeholder m).all (fun c => !isIdC c) = true ∧
        idRepl Mode.placeholder m ≠ [] := by
    intro m
    have hconst : idRepl Mode.placeholder m = "[身份证号]".toList := rfl
    rw [hconst]
    exact ⟨by decide, by decide⟩
  have hall : ∀ m ∈ idMatches t, m ≠ [] ∧ m.all isIdC = true := by
    intro m hm
    obtain ⟨p, u, w, r, hmm⟩ := scanG_mem _ _ _ _ hm
    exact idMatchAt_shape hmm
  exact foldRep_kills hrep (idMatches t) t hall s hs

/-- C1, witness: the first id of the splice input is gone after the
placeholder id pass. -/
theorem c1_witness :
    onesId ∈ idMatches spliceInput ∧
      ¬ Occurs onesId (maskIdPass Mode.placeholder spliceInput) :=
  ⟨by decide, c1_placeholder_id_pass_clean spliceInput onesId (by decide)⟩

/-! ## C10: every record datetime is a timestamp or the sentinel -/

/-- Rebuilding a takeCount success from its pieces. -/
theorem takeCount_append {p : Char → Bool} {a : Str} (r : Str)
    (hlen : a.length = n) (hall : a.all p = true) :
    takeCount p n (a ++ r) = some (a, r) := by
  unfold takeCount
  have ht : (a ++ r).take n = a := by
    rw [← hlen, List.take_append_of_le_length (Nat.le_refl a.length),
      List.take_length]
  have hd : (a ++ r).drop n = r := by
    rw [← hlen, List.drop_left]
  rw [ht, hd]
  simp [hlen, hall]

/-- takeWhile and dropWhile across an all-satisfying prefix. -/
theorem span_append {q : Char → Bool} :
    ∀ (a b : Str), a.all q = true →
      (∀ c, b.head? = some c → q c = false) →
      (a ++ b).takeWhile q = a ∧ (a ++ b).dropWhile q = b := by
  intro a
  induction a with
  | nil =>
    intro b _ hb
    cases b with
    | nil => simp
    | cons c bs =>
      have hc := hb c rfl
      simp [List.takeWhile_cons, List.dropWhile_cons, hc]
  | cons x a' ih =>
    intro b hx hb
    have hq : q x = true := by
      simp only [List.all_cons, Bool.and_eq_true] at hx
      exact hx.1
    have ha' : a'.all q = true := by
      simp only [List.all_cons, Bool.and_eq_true] at hx
      exact hx.2
    have hih := ih b ha' hb
    simp [List.takeWhile_cons, List.dropWhile_cons, hq, hih.1, hih.2]

/-- A digit is not whitespace. -/
theorem isWs_false_of_isDig {c : Char} (h : isDig c = true) : isWs c = false := by
  unfold isDig at h
  unfold isWs
  simp only [Bool.and_eq_true, decide_eq_true_eq] at h
  simp only [Bool.or_eq_false_iff, decide_eq_false_iff_not]
  omega

/-- The pieces of a timestamp match. -/
theorem dtMatchHere_parts {t m rest : Str} (h : dtMatchHere t = some (m, rest)) :
    ∃ d1 d2 d3 ws h1 h2 : Str,
      m = d1 ++ '-' :: (d2 ++ '-' :: (d3 ++ ws ++ h1 ++ ':' :: h2)) ∧
      d1.length = 4 ∧ d1.all isDig = true ∧
      d2.length = 2 ∧ d2.all isDig = true ∧
      d3.length = 2 ∧ d3.all isDig = true ∧
      ws ≠ [] ∧ ws.all isWs = true ∧
      h1.length = 2 ∧ h1.all isDig = true ∧
      h2.length = 2 ∧ h2.all isDig = true ∧
      t = m ++ rest := by
  unfold dtMatchHere at h
  split at h
  · exact absurd h (by simp)
  · rename_i d1 t1 h4
    obtain ⟨hd1l, hd1a, hd1e⟩ := takeCount_eq h4
    split at h
    · exact absurd h (by simp)
    · rename_i c1 t2
      split at h
      · rename_i hc1
        split at h
        · exact absurd h (by simp)
        · rename_i d2 t3 hm2
          obtain ⟨hd2l, hd2a, hd2e⟩ := takeCount_eq hm2
          split at h
          · exact absurd h (by simp)
          · rename_i c2 t4
            split at h
            · rename_i hc2
              split at h
              · exact absurd h (by simp)
              · rename_i d3 t5 hm3
                obtain ⟨hd3l, hd3a, hd3e⟩ := takeCount_eq hm3
                dsimp only at h
                split at h
                · exact absurd h (by simp)
                · rename_i hws
                  split at h
                  · exact absurd h (by simp)
                  · rename_i h1 t7 hm4
                    obtain ⟨hh1l, hh1a, hh1e⟩ := takeCount_eq hm4
                    split at h
                    · exact absurd h (by simp)
                    · rename_i c3 t8
                      split at h
                      · rename_i hc3
                        split at h
                        · exact absurd h (by simp)
                        · rename_i h2 t9 hm5
                          obtain ⟨hh2l, hh2a, hh2e⟩ := takeCount_eq hm5
                          simp only [Option.some.injEq, Prod.mk.injEq] at h
                          obtain ⟨hm, hrest⟩ := h
                          refine ⟨d1, d2, d3, t5.takeWhile isWs, h1, h2,
                            ?_, hd1l, hd1a, hd2l, hd2a, hd3l, hd3a,
                            ?_, ?_, hh1l, hh1a, hh2l, hh2a, ?_⟩
                          · rw [← hm, hc1, hc2, hc3]
                          · intro hnil
                            rw [hnil] at hws
                            simp at hws
                          · exact List.all_takeWhile
                          · -- t = m ++ rest
                            rw [← hm, ← hrest, hd1e, hd2e, hd3e, hc1, hc2, hc3]
                            have ht5 : t5 = List.takeWhile isWs t5 ++ List.dropWhile isWs t5 :=
                              (List.takeWhile_append_dropWhile isWs t5).symm
                            conv_lhs => rw [ht5, hh1e, hh2e]
                            simp [List.append_assoc, hc1, hc2, hc3]
                      · exact absurd h (by simp)
            · exact absurd h (by simp)
      · exact absurd h (by simp)

/-- head? across an append with a nonempty left part. -/
theorem head?_append_left {u : Str} (v : Str) (h : u ≠ []) :
    (u ++ v).head? = u.head? := by
  cases u with
  | nil => exact absurd rfl h
  | cons a b => simp

/-- getLast? across an append with a nonempty right part. -/
theorem getLast?_append_right (u : Str) {v : Str} (h : v ≠ []) :
    (u ++ v).getLast? = v.getLast? := by
  rw [← List.head?_reverse, List.reverse_append,
    head?_append_left _ (by simpa using h), List.head?_reverse]

/-- strip is the identity on a string with non-whitespace ends. -/
theorem stripWs_id_of_ends {t : Str}
    (hh : ∀ c, t.head? = some c → isWs c = false)
    (hl : ∀ c, t.getLast? = some c → isWs c = false) : stripWs t = t := by
  unfold stripWs
  have h1 : t.dropWhile isWs = t := by
    cases t with
    | nil => simp
    | cons a b =>
      have := hh a rfl
      simp [List.dropWhile_cons, this]
  rw [h1]
  have h2 : t.reverse.dropWhile isWs = t.reverse := by
    cases hmr : t.reverse with
    | nil => simp
    | cons a b =>
      have ha : t.getLast? = some a := by
        rw [← List.head?_reverse, hmr]
        simp
      have := hl a ha
      simp [List.dropWhile_cons, this]
  rw [h2, List.reverse_reverse]

/-- A timestamp match re-matches itself exactly. -/
theorem dtMatchHere_again {t m rest : Str} (h : dtMatchHere t = some (m, rest)) :
    dtMatchHere m = some (m, []) ∧ m ≠ [] ∧ stripWs m = m := by
  obtain ⟨d1, d2, d3, ws, h1, h2, hm, hd1l, hd1a, hd2l, hd2a, hd3l, hd3a,
    hwsne, hwsa, hh1l, hh1a, hh2l, hh2a, _⟩ := dtMatchHere_parts h
  obtain ⟨x1, d1', hx1⟩ : ∃ x1 d1', d1 = x1 :: d1' := by
    cases d1 with
    | nil => simp at hd1l
    | cons a b => exact ⟨a, b, rfl⟩
  obtain ⟨y1, h1', hy1⟩ : ∃ y1 h1', h1 = y1 :: h1' := by
    cases h1 with
    | nil => simp at hh1l
    | cons a b => exact ⟨a, b, rfl⟩
  obtain ⟨w1, w2, hw⟩ : ∃ w1 w2, h2 = [w1, w2] := by
    cases h2 with
    | nil => simp at hh2l
    | cons a bt =>
      cases bt with
      | nil => simp at hh2l
      | cons b ct =>
        cases ct with
        | nil => exact ⟨a, b, rfl⟩
        | cons e dt => simp at hh2l
  have hx1d : isDig x1 = true := by
    rw [hx1] at hd1a
    simp only [List.all_cons, Bool.and_eq_true] at hd1a
    exact hd1a.1
  have hy1d : isDig y1 = true := by
    rw [hy1] at hh1a
    simp only [List.all_cons, Bool.and_eq_true] at hh1a
    exact hh1a.1
  have hw2d : isDig w2 = true := by
    rw [hw] at hh2a
    simp only [List.all_cons, Bool.and_eq_true] at hh2a
    exact hh2a.2.1
  have hspan := span_append (q := isWs) ws (h1 ++ ':' :: h2) hwsa
    (by
      intro c hc
      rw [hy1] at hc
      simp only [List.cons_append, List.head?_cons, Option.some.injEq] at hc
      rw [← hc]
      exact isWs_false_of_isDig hy1d)
  have hmatch : dtMatchHere m = some (m, []) := by
    rw [hm]
    unfold dtMatchHere
    rw [takeCount_append ('-' :: (d2 ++ '-' :: (d3 ++ ws ++ h1 ++ ':' :: h2))) hd1l hd1a]
    dsimp only
    rw [if_pos rfl]
    rw [takeCount_append ('-' :: (d3 ++ ws ++ h1 ++ ':' :: h2)) hd2l hd2a]
    dsimp only
    rw [if_pos rfl]
    have hassoc : d3 ++ ws ++ h1 ++ ':' :: h2 = d3 ++ (ws ++ (h1 ++ ':' :: h2)) := by
      simp [List.append_assoc]
    rw [hassoc]
    rw [takeCount_append (ws ++ (h1 ++ ':' :: h2)) hd3l hd3a]
    dsimp only
    rw [hspan.1, hspan.2]
    have hwse : ws.isEmpty = false := by
      cases ws with
      | nil => exact absurd rfl hwsne
      | cons a b => simp
    rw [hwse]
    simp only [Bool.false_eq_true, if_false]
    rw [takeCount_append (':' :: h2) hh1l hh1a]
    dsimp only
    rw [if_pos rfl]
    have hh2e : h2 ++ ([] : Str) = h2 := by simp
    rw [← hh2e, takeCount_append ([] : Str) hh2l hh2a]
    simp [hassoc]
  refine ⟨hmatch, ?_, ?_⟩
  · rw [hm, hx1]
    simp
  · have hmrw : m = (d1 ++ '-' :: (d2 ++ '-' :: (d3 ++ ws ++ h1 ++ [':']))) ++ h2 := by
      rw [hm]
      simp [List.append_assoc]
    apply stripWs_id_of_ends
    · intro c hc
      rw [hm, hx1] at hc
      simp only [List.cons_append, List.head?_cons, Option.some.injEq] at hc
      rw [← hc]
      exact isWs_false_of_isDig hx1d
    · intro c hc
      rw [hmrw, getLast?_append_right _ (by simp [hw]), hw] at hc
      simp only [List.getLast?_cons_cons, List.getLast?_singleton, Option.some.injEq] at hc
      rw [← hc]
      exact isWs_false_of_isDig hw2d

/-- Datetime field invariant of a single built record. -/
theorem buildRecord_datetime (seg : Str) :
    (buildRecord seg).datetime ≠ [] ∧
      ((buildRecord seg).datetime = "无时间戳".toList ∨
        isDtString (buildRecord seg).datetime = true) := by
  unfold buildRecord
  cases hp : parseDtHead seg with
  | none =>
    dsimp only
    exact ⟨by decide, Or.inl rfl⟩
  | some pr =>
    obtain ⟨m', c'⟩ := pr
    dsimp only
    have hmm : ∃ m rest, dtMatchHere seg = some (m, rest) ∧ m' = stripWs m := by
      unfold parseDtHead at hp
      cases hd : dtMatchHere seg with
      | none => rw [hd] at hp; exact absurd hp (by simp)
      | some mr =>
        obtain ⟨m, rest⟩ := mr
        rw [hd] at hp
        simp only [Option.some.injEq, Prod.mk.injEq] at hp
        exact ⟨m, rest, rfl, hp.1.symm⟩
    obtain ⟨m, rest, hd, hm'⟩ := hmm
    obtain ⟨hagain, hne, hstrip⟩ := dtMatchHere_again hd
    have hm'm : m' = m := by rw [hm', hstrip]
    subst hm'm
    have hemp : m'.isEmpty = false := by
      cases m' with
      | nil => exact absurd rfl hne
      | cons a b => simp
    rw [hemp]
    simp only [Bool.false_eq_true, if_false]
    refine ⟨hne, Or.inr ?_⟩
    unfold isDtString
    rw [hagain]
    simp

/-- Every record of buildRecords is built from some stripped segment. -/
theorem mem_buildRecords {text : Str} {r : MedRec} (h : r ∈ buildRecords text) :
    ∃ seg, r = buildRecord seg := by
  unfold buildRecords at h
  generalize pairUp (computeStarts text) text.length = ps at h
  induction ps with
  | nil => simp at h
  | cons p rest ih =>
    rw [List.foldr_cons] at h
    dsimp only at h
    split at h
    · exact ih h
    · rcases List.mem_cons.mp h with rfl | h2
      · exact ⟨stripWs (sliceSpan text p), rfl⟩
      · exact ih h2

/-- Folding a title record into its successor keeps the datetime field. -/
theorem foldInto_datetime (a b : MedRec) :
    (foldInto a b).datetime = b.datetime := rfl

/-- The merge pass preserves any property of the datetime fields. -/
theorem mergeRecsF_datetime {P : Str → Prop} :
    ∀ (fuel : Nat) (rs : List MedRec), (∀ x ∈ rs, P x.datetime) →
      ∀ r ∈ mergeRecsF fuel rs, P r.datetime := by
  intro fuel
  induction fuel with
  | zero =>
    intro rs h r hr
    rw [mergeRecsF] at hr
    exact h r hr
  | succ n ih =>
    intro rs h r hr
    cases rs with
    | nil => simp [mergeRecsF] at hr
    | cons r1 rest =>
      cases rest with
      | nil =>
        rw [mergeRecsF] at hr
        simp only [List.mem_singleton] at hr
        subst hr
        exact h r (by simp)
      | cons r2 rest2 =>
        by_cases hc : mergeCond r1 = true
        · have hstep : mergeRecsF (n + 1) (r1 :: r2 :: rest2) =
              mergeRecsF n (foldInto r1 r2 :: rest2) := by
            simp [mergeRecsF, hc]
          rw [hstep] at hr
          refine ih _ ?_ r hr
          intro x hx
          rcases List.mem_cons.mp hx with rfl | hx2
          · rw [foldInto_datetime]
            exact h r2 (by simp)
          · exact h x (by simp [hx2])
        · have hstep : mergeRecsF (n + 1) (r1 :: r2 :: rest2) =
              r1 :: mergeRecsF n (r2 :: rest2) := by
            simp [mergeRecsF, hc]
          rw [hstep] at hr
          rcases List.mem_cons.mp hr with rfl | hr2
          · exact h r (by simp)
          · exact ih _ (fun x hx => h x (by simp [List.mem_cons.mp hx])) r hr2

/-- C10: in every record returned by parse_medical_records, the datetime
field is a string matched by the timestamp pattern (date, whitespace, time)
or exactly the no-timestamp sentinel; it is never empty. -/
theorem c10_datetime_wellformed :
    ∀ (text : Str) (r : MedRec), r ∈ parseMedicalRecords text →
      r.datetime ≠ [] ∧
        (r.datetime = "无时间戳".toList ∨ isDtString r.datetime = true) := by
  intro text r hr
  unfold parseMedicalRecords mergeRecs at hr
  refine mergeRecsF_datetime
    (P := fun d => d ≠ [] ∧ (d = "无时间戳".toList ∨ isDtString d = true))
    _ _ ?_ r hr
  intro x hx
  obtain ⟨seg, rfl⟩ := mem_buildRecords hx
  exact buildRecord_datetime seg

/-- C10, witness at a concrete one-record text. -/
theorem c10_witness :
    wRec ∈ parseMedicalRecords wText ∧
      (wRec.datetime ≠ [] ∧
        (wRec.datetime = "无时间戳".toList ∨ isDtString wRec.datetime = true)) :=
  ⟨by decide, c10_datetime_wellformed wText wRec (by decide)⟩

/-! ## C3: segment spans are contiguous and rebuild the tail of the text -/

/-- dropWhile is drop by the takeWhile length. -/
theorem dropWhile_eq_drop {p : Char → Bool} :
    ∀ l : Str, l.drop (l.takeWhile p).length = l.dropWhile p := by
  intro l
  induction l with
  | nil => simp
  | cons c ts ih =>
    by_cases hp : p c = true
    · simp [List.takeWhile_cons, List.dropWhile_cons, hp, ih]
    · simp [List.takeWhile_cons, List.dropWhile_cons, hp]

/-- A matchLits success consumes an exact prefix. -/
theorem matchLits_sound :
    ∀ {ls : List Str} {t l r : Str}, matchLits ls t = some (l, r) → t = l ++ r := by
  intro ls
  induction ls with
  | nil => intro t l r h; simp [matchLits] at h
  | cons x ls' ih =>
    intro t l r h
    unfold matchLits at h
    by_cases hx : startsSeg x t = true
    · rw [if_pos hx] at h
      simp only [Option.some.injEq, Prod.mk.injEq] at h
      obtain ⟨rfl, hr⟩ := h
      obtain ⟨b, hb⟩ := startsSeg_iff.mp hx
      rw [← hr, hb, List.drop_left]
    · rw [if_neg hx] at h
      exact ih h

/-- insertSortedNat preserves membership downward. -/
theorem mem_insertSortedNat {z x : Nat} :
    ∀ {l : List Nat}, z ∈ insertSortedNat x l → z = x ∨ z ∈ l := by
  intro l
  induction l with
  | nil => intro h; simpa [insertSortedNat] using h
  | cons y ys ih =>
    intro h
    unfold insertSortedNat at h
    by_cases h1 : x < y
    · rw [if_pos h1] at h
      rcases List.mem_cons.mp h with rfl | h2
      · exact Or.inl rfl
      · exact Or.inr h2
    · rw [if_neg h1] at h
      by_cases h2 : x = y
      · rw [if_pos h2] at h
        exact Or.inr h
      · rw [if_neg h2] at h
        rcases List.mem_cons.mp h with rfl | h3
        · exact Or.inr (by simp)
        · rcases ih h3 with h4 | h4
          · exact Or.inl h4
          · exact Or.inr (by simp [h4])

/-- The head of an insertion is the inserted value or the old head. -/
theorem insertSortedNat_head (x : Nat) :
    ∀ (l : List Nat), (insertSortedNat x l).head? = some x ∨
      (insertSortedNat x l).head? = l.head? := by
  intro l
  cases l with
  | nil => exact Or.inl rfl
  | cons y ys =>
    unfold insertSortedNat
    by_cases h1 : x < y
    · rw [if_pos h1]; exact Or.inl rfl
    · rw [if_neg h1]
      by_cases h2 : x = y
      · rw [if_pos h2]; exact Or.inr rfl
      · rw [if_neg h2]; exact Or.inr rfl

/-- insertSortedNat preserves strict sortedness. -/
theorem insertSortedNat_chain (x : Nat) :
    ∀ (l : List Nat), List.Chain' (· < ·) l →
      List.Chain' (· < ·) (insertSortedNat x l) := by
  intro l
  induction l with
  | nil => intro _; simp [insertSortedNat]
  | cons y ys ih =>
    intro hch
    have hys : List.Chain' (· < ·) ys := (List.chain'_cons'.mp hch).2
    have hhd : ∀ z ∈ ys.head?, y < z := (List.chain'_cons'.mp hch).1
    unfold insertSortedNat
    by_cases h1 : x < y
    · rw [if_pos h1]
      exact List.chain'_cons'.mpr ⟨by intro z hz; simp at hz; omega, hch⟩
    · rw [if_neg h1]
      by_cases h2 : x = y
      · rw [if_pos h2]; exact hch
      · rw [if_neg h2]
        refine List.chain'_cons'.mpr ⟨?_, ih hys⟩
        intro z hz
        rcases insertSortedNat_head x ys with hh | hh
        · rw [hh] at hz
          simp at hz
          omega
        · rw [hh] at hz
          exact hhd z hz

/-- sortedDedup yields a strictly ascending list. -/
theorem sortedDedup_chain (l : List Nat) :
    List.Chain' (· < ·) (sortedDedup l) := by
  unfold sortedDedup
  induction l with
  | nil => simp
  | cons x xs ih => exact insertSortedNat_chain x _ ih

/-- The segment spans are contiguous: each span ends where the next starts. -/
theorem pairUp_chain :
    ∀ (l : List Nat) (n : Nat),
      List.Chain' (fun p q : Nat × Nat => p.2 = q.1) (pairUp l n) := by
  intro l
  induction l with
  | nil => intro n; simp [pairUp]
  | cons s rest ih =>
    intro n
    cases rest with
    | nil => simp [pairUp]
    | cons s2 r2 =>
      rw [pairUp]
      refine List.chain'_cons'.mpr ⟨?_, ih n⟩
      intro q hq
      cases r2 with
      | nil => simp [pairUp] at hq; rw [← hq]
      | cons s3 r3 => simp [pairUp] at hq; rw [← hq]

/-- Concatenating the spans of an ascending start list rebuilds the text
from the first start onward. -/
theorem sliceJoin_eq_drop (text : Str) :
    ∀ (l : List Nat) (s : Nat), List.Chain' (· ≤ ·) (s :: l) →
      ((pairUp (s :: l) text.length).map (sliceSpan text)).foldr
          (· ++ ·) [] = text.drop s := by
  intro l
  induction l with
  | nil =>
    intro s _
    simp only [pairUp, List.map_cons, List.map_nil, List.foldr_cons,
      List.foldr_nil, List.append_nil]
    unfold sliceSpan
    apply List.take_of_length_le
    rw [List.length_drop]
  | cons s2 l' ih =>
    intro s hch
    have h12 : s ≤ s2 := by
      have := (List.chain'_cons'.mp hch).1
      exact this s2 (by simp)
    have hch2 : List.Chain' (· ≤ ·) (s2 :: l') := (List.chain'_cons'.mp hch).2
    rw [pairUp]
    simp only [List.map_cons, List.foldr_cons]
    rw [ih s2 hch2]
    unfold sliceSpan
    have hdd : text.drop s2 = (text.drop s).drop (s2 - s) := by
      rw [List.drop_drop]
      congr 1
      omega
    rw [hdd, List.take_append_drop]

/-- C3, amended: the spans cut by the union of both boundary detectors are
contiguous (each ends where the next begins), and their concatenation
rebuilds the source text from the first boundary onward; any text before
the first boundary is discarded (and stored bodies are stripped further). -/
theorem c3_spans_contiguous_cover :
    ∀ text : Str, computeStarts text ≠ [] →
      List.Chain' (fun p q : Nat × Nat => p.2 = q.1)
        (pairUp (computeStarts text) text.length) ∧
      ((pairUp (computeStarts text) text.length).map (sliceSpan text)).foldr
          (· ++ ·) [] = text.drop ((computeStarts text).headD 0) := by
  intro text hne
  refine ⟨pairUp_chain _ _, ?_⟩
  have hch : List.Chain' (· < ·) (computeStarts text) := sortedDedup_chain _
  cases hcs : computeStarts text with
  | nil => exact absurd hcs hne
  | cons s l =>
    rw [hcs] at hch
    have hle : List.Chain' (· ≤ ·) (s :: l) :=
      List.Chain'.imp (fun a b h => Nat.le_of_lt h) hch
    rw [List.headD_cons]
    exact sliceJoin_eq_drop text l s hle

/-- C3, counterexample: text before the first boundary is not covered, so
the concatenation of all spans does not reconstruct the whole text. -/
theorem c3_counterexample :
    computeStarts "前\n2024-01-01 10:00 查房".toList = [2] ∧
    ((pairUp (computeStarts "前\n2024-01-01 10:00 查房".toList)
          "前\n2024-01-01 10:00 查房".toList.length).map
        (sliceSpan "前\n2024-01-01 10:00 查房".toList)).foldr (· ++ ·) [] ≠
      "前\n2024-01-01 10:00 查房".toList := by
  constructor <;> decide

/-- C3, witness at the same concrete text. -/
theorem c3_witness :
    computeStarts "前\n2024-01-01 10:00 查房".toList ≠ [] ∧
      (List.Chain' (fun p q : Nat × Nat => p.2 = q.1)
          (pairUp (computeStarts "前\n2024-01-01 10:00 查房".toList)
            "前\n2024-01-01 10:00 查房".toList.length) ∧
        ((pairUp (computeStarts "前\n2024-01-01 10:00 查房".toList)
              "前\n2024-01-01 10:00 查房".toList.length).map
            (sliceSpan "前\n2024-01-01 10:00 查房".toList)).foldr (· ++ ·) [] =
          "前\n2024-01-01 10:00 查房".toList.drop
            ((computeStarts "前\n2024-01-01 10:00 查房".toList).headD 0)) :=
  ⟨by decide, c3_spans_contiguous_cover _ (by decide)⟩

/-! ## C4: the masking passes write to the hospital mapping -/

/-- The hospital pass only ever appends mapping entries. -/
theorem hospFold_mapping_mono :
    ∀ (ms : List Str) (p : HospSt × Str),
      ∃ ext, (ms.foldl hospStep p).1.mapping = p.1.mapping ++ ext := by
  intro ms
  induction ms with
  | nil => intro p; exact ⟨[], by simp⟩
  | cons m rest ih =>
    intro p
    obtain ⟨ext, hext⟩ := ih (hospStep p m)
    rw [List.foldl_cons]
    cases hlk : lookupM p.1.mapping m with
    | some lab =>
      refine ⟨ext, ?_⟩
      rw [hext]
      simp [hospStep, hlk]
    | none =>
      refine ⟨(m, hospLabel (p.1.counter + 1)) :: ext, ?_⟩
      rw [hext]
      simp [hospStep, hlk]

/-- C4, amended: DataMasker.mask_text is deterministic in (text, state,
mode) but is not write-free — the hospital pass appends first-seen hospital
names to the pseudonym mapping during masking; existing entries are never
altered, removed or reordered, the mapping is only extended. -/
theorem c4_mask_text_extends_mapping :
    ∀ (mode : Mode) (st : HospSt) (t : Str),
      ∃ ext, (dmMaskText mode st t).1.mapping = st.mapping ++ ext := by
  intro mode st t
  by_cases h : t.isEmpty = true
  · exact ⟨[], by simp [dmMaskText, h]⟩
  · obtain ⟨ext, hext⟩ :=
      hospFold_mapping_mono
        (dmHospMatches (maskAdmPass (maskIdPass mode (maskNames mode t))))
        (st, maskAdmPass (maskIdPass mode (maskNames mode t)))
    refine ⟨ext, ?_⟩
    simp only [dmMaskText, h, Bool.false_eq_true, if_false, maskHospPass]
    exact hext

/-- C4, counterexample: a single mask_text call on a fresh masker writes a
new entry into the hospital pseudonym mapping, so redaction is not free of
side effects on the mappings. -/
theorem c4_counterexample :
    (dmMaskText Mode.remove ⟨[], 0⟩ "北京协和医院".toList).1.mapping =
      [("北京协和医院".toList, "hospital A".toList)] ∧
    (dmMaskText Mode.remove ⟨[], 0⟩ "北京协和医院".toList).1.mapping ≠ [] := by
  constructor <;> decide

/-! ## C6: the merge pass keeps a trailing title-only record -/

/-- The merge pass never empties a nonempty record list. -/
theorem mergeRecsF_ne_nil :
    ∀ (fuel : Nat) (rs : List MedRec), rs ≠ [] → mergeRecsF fuel rs ≠ [] := by
  intro fuel
  induction fuel with
  | zero => intro rs h; simpa [mergeRecsF] using h
  | succ n ih =>
    intro rs h
    cases rs with
    | nil => exact absurd rfl h
    | cons r1 rest =>
      cases rest with
      | nil => simp [mergeRecsF]
      | cons r2 rest2 =>
        by_cases hc : mergeCond r1 = true
        · have hstep : mergeRecsF (n + 1) (r1 :: r2 :: rest2) =
              mergeRecsF n (foldInto r1 r2 :: rest2) := by
            simp [mergeRecsF, hc]
          rw [hstep]
          exact ih _ (by simp)
        · simp [mergeRecsF, hc]

/-- C6, amended: a title-only record with a successor is folded into that
successor, but a title-only record with no following record is kept in the
output unchanged (the merge loop appends it), not dropped. -/
theorem c6_merge_keeps_trailing_title :
    ∀ (r1 r2 : MedRec) (rs : List MedRec), mergeCond r1 = true → rs ≠ [] →
      mergeRecs [r1] = [r1] ∧ mergeRecs [r1, r2] = [foldInto r1 r2] ∧
        mergeRecs rs ≠ [] := by
  intro r1 r2 rs hc hrs
  refine ⟨by simp [mergeRecs, mergeRecsF], ?_, mergeRecsF_ne_nil _ rs hrs⟩
  simp [mergeRecs, mergeRecsF, hc]

/-- C6, witness for the amended claim at a concrete title-only record. -/
theorem c6_witness :
    mergeCond titleOnlyRec = true ∧ ([titleOnlyRec] : List MedRec) ≠ [] ∧
      (mergeRecs [titleOnlyRec] = [titleOnlyRec] ∧
        mergeRecs [titleOnlyRec, followRec] = [foldInto titleOnlyRec followRec] ∧
        mergeRecs [titleOnlyRec] ≠ []) :=
  ⟨by decide, by decide,
    c6_merge_keeps_trailing_title titleOnlyRec followRec [titleOnlyRec]
      (by decide) (by decide)⟩

/-- C6, counterexample to the drop clause: a concrete title-only record with
no successor satisfies the title-only condition and survives the merge pass
unchanged instead of being dropped. -/
theorem c6_counterexample :
    mergeCond titleOnlyRec = true ∧
      mergeRecs [titleOnlyRec] = [titleOnlyRec] := by
  constructor <;> decide

/-! ## C9: no boundary found means empty result and loud failure -/

/-- C9: when neither boundary detector fires, parse_medical_records returns
the empty list and process raises the no-records error before producing any
output. -/
theorem c9_no_boundary_error :
    ∀ text : Str, computeStarts text = [] →
      parseMedicalRecords text = [] ∧
      processRecords text =
        Except.error "未找到任何病程记录!请检查文档格式是否正确。".toList := by
  intro text h
  have hb : buildRecords text = [] := by
    simp [buildRecords, h, pairUp]
  have hp : parseMedicalRecords text = [] := by
    simp [parseMedicalRecords, hb, mergeRecs, mergeRecsF]
  exact ⟨hp, by simp [processRecords, hp]⟩

/-- C9, witness: a concrete boundary-free text. -/
theorem c9_witness :
    computeStarts "日常随访文字".toList = [] ∧
      (parseMedicalRecords "日常随访文字".toList = [] ∧
        processRecords "日常随访文字".toList =
          Except.error "未找到任何病程记录!请检查文档格式是否正确。".toList) :=
  ⟨by decide, c9_no_boundary_error _ (by decide)⟩

/-! ## Counterexamples for C1, C2, C5, C8 -/

/-- C1, counterexample: in remove mode, deleting the second matched id
splices the digits around it into a literal occurrence of the first matched
id, which survives to the output of mask_text. -/
theorem c1_counterexample :
    onesId ∈ idMatches spliceInput ∧
    hasSeg (dmMaskText Mode.remove ⟨[], 0⟩ spliceInput).2 onesId = true := by
  constructor <;> decide

/-- C2, counterexample: the admission deidentifier has no guard past 26, so
the 27th distinct hospital gets the ASCII successor of Z rather than the
decimal numeral 27. -/
theorem c2_counterexample :
    lookupM ((admNames27.foldl admAddHospital ⟨[], 0⟩).mapping)
        ('午' :: "人民医院".toList) = some "hospital [".toList ∧
    "hospital [".toList ≠ "hospital 27".toList := by
  constructor <;> decide

/-- C5, counterexample: DataMasker._mask_names is mode-dependent — the three
modes give three different outputs on the same labelled name field, so the
patient-name transform is not identical across modes. -/
theorem c5_counterexample :
    maskNames Mode.remove "患者:李明 余文".toList ≠
      maskNames Mode.placeholder "患者:李明 余文".toList ∧
    maskNames Mode.remove "患者:李明 余文".toList ≠
      maskNames Mode.asterisk "患者:李明 余文".toList := by
  constructor <;> decide

/-- C8, counterexample: the patched DataMasker birth-date pass matches the
label and year inside an already-normalised string and appends a second year
marker, so it is not idempotent on its own output. -/
theorem c8_counterexample :
    maskBirthPassDM "出生日期：1988年".toList = "出生日期：1988年年".toList ∧
    maskBirthPassDM "出生日期：1988年".toList ≠ "出生日期：1988年".toList := by
  constructor <;> decide

/-! ## C8: the unified birth-date pass is a fixpoint on its normalised form -/

/-- A literal above the digit range never beq-equals a digit. -/
theorem beq_false_of_isDig (c : Char) {d : Char} (h : isDig d = true)
    (hc : 58 ≤ c.toNat) : (c == d) = false := by
  rw [beq_eq_false_iff_ne]
  intro he
  subst he
  unfold isDig at h
  simp only [Bool.and_eq_true, decide_eq_true_eq] at h
  omega

/-- A birth-date substitution with no match anywhere is the identity. -/
theorem subBirth_id (mAt : Str → Option ((Str × Str) × Str × Str)) :
    ∀ (fuel : Nat) (t : Str), (∀ n, mAt (t.drop n) = none) →
      subBirth mAt fuel t = t := by
  intro fuel
  induction fuel with
  | zero => intro t _; rfl
  | succ f ih =>
    intro t h
    cases t with
    | nil => rfl
    | cons c ts =>
      have h0 : mAt (c :: ts) = none := h 0
      rw [subBirth, h0]
      have : subBirth mAt f ts = ts := by
        apply ih
        intro n
        have := h (n + 1)
        rwa [List.drop_succ_cons] at this
      rw [this]

/-- Neither unified birth-date pattern matches anywhere in the normalised
output form, for any of the three labels and any year digits. -/
theorem uniBirth_no_match (lbl : Str)
    (hl : lbl = "出生日期".toList ∨ lbl = "生日".toList ∨ lbl = "出生".toList)
    (d1 d2 d3 d4 : Char) (h1 : isDig d1 = true) (h2 : isDig d2 = true)
    (h3 : isDig d3 = true) (h4 : isDig d4 = true) : ∀ n,
      uniBirthFullMatchAt ((lbl ++ '：' :: [d1, d2, d3, d4, '年']).drop n) =
          none ∧
        uniBirthShortMatchAt ((lbl ++ '：' :: [d1, d2, d3, d4, '年']).drop n) =
          none := by
  have e11 := beq_false_of_isDig '出' h1 (by decide)
  have e12 := beq_false_of_isDig '出' h2 (by decide)
  have e13 := beq_false_of_isDig '出' h3 (by decide)
  have e14 := beq_false_of_isDig '出' h4 (by decide)
  have e21 := beq_false_of_isDig '生' h1 (by decide)
  have e22 := beq_false_of_isDig '生' h2 (by decide)
  have e23 := beq_false_of_isDig '生' h3 (by decide)
  have e24 := beq_false_of_isDig '生' h4 (by decide)
  have w1 := isWs_false_of_isDig h1
  intro n
  rcases hl with rfl | rfl | rfl
  · rcases n with _ | _ | _ | _ | _ | _ | _ | _ | _ | _ | n
    all_goals
      simp +decide [uniBirthFullMatchAt, uniBirthFullTry, uniBirthShortMatchAt,
        uniBirthShortTry, startsSeg, takeCount, birthTailB, parse12Sep, isColon,
        e11, e12, e13, e14, e21, e22, e23, e24, w1, h1, h2, h3, h4,
        List.drop_succ_cons]
  · rcases n with _ | _ | _ | _ | _ | _ | _ | _ | n
    all_goals
      simp +decide [uniBirthFullMatchAt, uniBirthFullTry, uniBirthShortMatchAt,
        uniBirthShortTry, startsSeg, takeCount, birthTailB, parse12Sep, isColon,
        e11, e12, e13, e14, e21, e22, e23, e24, w1, h1, h2, h3, h4,
        List.drop_succ_cons]
  · rcases n with _ | _ | _ | _ | _ | _ | _ | _ | n
    all_goals
      simp +decide [uniBirthFullMatchAt, uniBirthFullTry, uniBirthShortMatchAt,
        uniBirthShortTry, startsSeg, takeCount, birthTailB, parse12Sep, isColon,
        e11, e12, e13, e14, e21, e22, e23, e24, w1, h1, h2, h3, h4,
        List.drop_succ_cons]

/-- C8, amended: UnifiedMedicalMasker.mask_birth_date leaves its own
normalised output label-colon-year-marker unchanged: it is a fixpoint of the
pass, for each of the three labels and any year digits. -/
theorem c8_uni_birth_idempotent (lbl : Str)
    (hl : lbl = "出生日期".toList ∨ lbl = "生日".toList ∨ lbl = "出生".toList)
    (d1 d2 d3 d4 : Char) (h1 : isDig d1 = true) (h2 : isDig d2 = true)
    (h3 : isDig d3 = true) (h4 : isDig d4 = true) :
    uniMaskBirthDate (lbl ++ '：' :: [d1, d2, d3, d4, '年']) =
      lbl ++ '：' :: [d1, d2, d3, d4, '年'] := by
  have hm := uniBirth_no_match lbl hl d1 d2 d3 d4 h1 h2 h3 h4
  unfold uniMaskBirthDate
  rw [subBirth_id _ _ _ (fun n => (hm n).1),
    subBirth_id _ _ _ (fun n => (hm n).2)]

/-- C8, witness: a concrete normalised birth-date line is a fixpoint. -/
theorem c8_witness :
    uniMaskBirthDate ("出生日期".toList ++ '：' :: ['1', '9', '9', '0', '年']) =
      "出生日期".toList ++ '：' :: ['1', '9', '9', '0', '年'] :=
  c8_uni_birth_idempotent "出生日期".toList (Or.inl rfl) '1' '9' '9' '0'
    (by decide) (by decide) (by decide) (by decide)

/-! ## C5: the unified patient-name pass removes the supplied name -/

/-- A colon character is not a Han character. -/
theorem isHan_false_of_isColon {c : Char} (h : isColon c = true) :
    isHan c = false := by
  unfold isColon at h
  unfold isHan
  simp only [Bool.or_eq_true, decide_eq_true_eq] at h
  simp only [Bool.and_eq_false_iff, decide_eq_false_iff_not]
  omega

/-- The pieces of a generic patient-field match: the text starts with the
label, the matched colon, and material ending exactly where the rest
begins. -/
theorem genLabelMatchAt_parts {t lbl : Str} {col : Char} {whole rest : Str}
    (h : genLabelMatchAt t = some ((lbl, col), whole, rest)) :
    isColon col = true ∧ ∃ mid, t = lbl ++ col :: (mid ++ rest) := by
  unfold genLabelMatchAt at h
  cases hml : matchLits nameLabels2 t with
  | none => rw [hml] at h; simp at h
  | some p =>
    obtain ⟨lbl0, t1⟩ := p
    rw [hml] at h
    dsimp only at h
    cases t1 with
    | nil => simp at h
    | cons c t2 =>
      dsimp only at h
      by_cases hc : isColon c = true
      · rw [if_pos hc] at h
        by_cases hn :
            min (List.takeWhile isHan (List.dropWhile isWs t2)).length 4 < 2
        · rw [if_pos hn] at h; simp at h
        · rw [if_neg hn] at h
          simp only [Option.some.injEq, Prod.mk.injEq] at h
          obtain ⟨⟨h1, h2⟩, _, h4⟩ := h
          subst h1
          subst h2
          refine ⟨hc, List.takeWhile isWs t2 ++
            (List.dropWhile isWs t2).take
              (min (List.takeWhile isHan (List.dropWhile isWs t2)).length 4),
            ?_⟩
          have ht : t = lbl0 ++ c :: t2 := matchLits_sound hml
          rw [ht, ← h4]
          simp only [List.append_assoc, List.take_append_drop,
            List.takeWhile_append_dropWhile]
      · rw [if_neg hc] at h; simp at h

/-- Pulling an all-Han occurrence back through the patient-label rewrite:
each substituted block is bracketed by non-Han characters, so any occurrence
maps into the original text. -/
theorem occurs_subPatientLabels_pull {s : Str} (hs : s ≠ [])
    (hsC : s.all isHan = true) :
    ∀ (fuel : Nat) (t v : Str),
      Occurs s (v ++ subPatientLabels fuel t) → Occurs s (v ++ t) := by
  intro fuel
  induction fuel with
  | zero => intro t v h; simpa [subPatientLabels] using h
  | succ f ih =>
    intro t v h
    cases t with
    | nil => simpa [subPatientLabels] using h
    | cons c ts =>
      cases hm : genLabelMatchAt (c :: ts) with
      | none =>
        rw [subPatientLabels, hm] at h
        have h2 : Occurs s ((v ++ [c]) ++ subPatientLabels f ts) := by
          simpa [List.append_assoc] using h
        have h3 := ih ts (v ++ [c]) h2
        simpa [List.append_assoc] using h3
      | some payload =>
        obtain ⟨⟨lbl, col⟩, whole, rest⟩ := payload
        rw [subPatientLabels, hm] at h
        obtain ⟨hcol, mid, hts⟩ := genLabelMatchAt_parts hm
        have h' : Occurs s
            ((v ++ lbl) ++ (col :: "patient".toList) ++
              subPatientLabels f rest) := by
          simpa [List.append_assoc] using h
        have hbar : (col :: "patient".toList).all (fun d => !isHan d) = true := by
          have hcf : isHan col = false := isHan_false_of_isColon hcol
          simp only [List.all_cons, hcf, Bool.not_false, Bool.true_and]
          decide
        rcases occurs_split_mid hs hsC hbar (by simp) h' with hL | hR
        · have h6 : Occurs s ((v ++ lbl) ++ (col :: (mid ++ rest))) :=
            occurs_append_left _ hL
          rw [hts]
          simpa [List.append_assoc] using h6
        · have h5 : Occurs s rest := by
            have := ih rest [] (by simpa using hR)
            simpa using this
          rw [hts]
          have h7 := occurs_append_right (v ++ lbl ++ col :: mid) h5
          simpa [List.append_assoc] using h7

/-- C5, amended: UnifiedMedicalMasker.mask_patient_name takes no mode and,
given an explicit nonempty Han patient name, its output contains no literal
occurrence of that name: the global replacement removes every occurrence and
the label-field rewrite only inserts blocks bracketed by non-Han characters.
(DataMasker._mask_names, by contrast, is mode-dependent.) -/
theorem c5_unified_name_removed (t nm : Str) (h0 : nm ≠ [])
    (hh : nm.all isHan = true) :
    ¬ Occurs nm (uniMaskPatientName t (some nm)) := by
  intro hocc
  obtain ⟨a, l, rfl⟩ : ∃ a l, nm = a :: l := by
    cases nm with
    | nil => exact absurd rfl h0
    | cons a l => exact ⟨a, l, rfl⟩
  have hocc2 : Occurs (a :: l)
      (subPatientLabels ((replaceAll t (a :: l) "patient".toList).length + 1)
        (replaceAll t (a :: l) "patient".toList)) := hocc
  have h1 := occurs_subPatientLabels_pull h0 hh
    ((replaceAll t (a :: l) "patient".toList).length + 1)
    (replaceAll t (a :: l) "patient".toList) [] (by simpa using hocc2)
  have h2 : Occurs (a :: l) (replaceAll t (a :: l) "patient".toList) := by
    simpa using h1
  exact not_occurs_replaceAll_self h0 hh (by decide) (by decide) h2

/-- C5, witness: a concrete labelled record with the patient name supplied. -/
theorem c5_witness :
    ¬ Occurs "李明".toList
      (uniMaskPatientName "患者:李明 余文，李明查房".toList
        (some "李明".toList)) :=
  c5_unified_name_removed "患者:李明 余文，李明查房".toList "李明".toList
    (by decide) (by decide)

/-! ## C7: masthead hospitals are labelled first and 我院/本院 are rewritten -/

/-- Looking up the key of the head pair returns its value. -/
theorem lookupM_head (k v : Str) (rest : List (Str × Str)) :
    lookupM ((k, v) :: rest) k = some v := by
  unfold lookupM
  simp

/-- The labelling fold appends one labelled pair per name. -/
theorem labelFold_app :
    ∀ (l : List Str) (acc : List (Str × Str) × Nat),
      ∃ tl, (l.foldl (fun (p : List (Str × Str) × Nat) h =>
            (p.1 ++ [(h, hospLabel (p.2 + 1))], p.2 + 1)) acc).1 =
          acc.1 ++ tl ∧
        tl.map Prod.fst = l ∧
        (∀ q ∈ tl, ∃ k, q.2 = hospLabel k) := by
  intro l
  induction l with
  | nil => intro acc; exact ⟨[], by simp, rfl, by simp⟩
  | cons h1 l2 ih =>
    intro acc
    rw [List.foldl_cons]
    obtain ⟨tl, he, hm, hv⟩ :=
      ih (acc.1 ++ [(h1, hospLabel (acc.2 + 1))], acc.2 + 1)
    refine ⟨(h1, hospLabel (acc.2 + 1)) :: tl, ?_, ?_, ?_⟩
    · rw [he]
      simp
    · simp [hm]
    · intro q hq
      rcases List.mem_cons.mp hq with rfl | hq2
      · exact ⟨acc.2 + 1, rfl⟩
      · exact hv q hq2

/-- The first-seen fold only appends labelled pairs. -/
theorem lookupFold_app :
    ∀ (l : List Str) (acc : List (Str × Str) × Nat),
      ∃ tl, (l.foldl (fun (p : List (Str × Str) × Nat) h =>
            match lookupM p.1 h with
            | some _ => p
            | none => (p.1 ++ [(h, hospLabel (p.2 + 1))], p.2 + 1)) acc).1 =
          acc.1 ++ tl ∧
        (∀ q ∈ tl, ∃ k, q.2 = hospLabel k) := by
  intro l
  induction l with
  | nil => intro acc; exact ⟨[], by simp, by simp⟩
  | cons h1 l2 ih =>
    intro acc
    rw [List.foldl_cons]
    cases hl : lookupM acc.1 h1 with
    | some v =>
      obtain ⟨tl, he, hv⟩ := ih acc
      refine ⟨tl, ?_, hv⟩
      dsimp only
      exact he
    | none =>
      obtain ⟨tl, he, hv⟩ :=
        ih (acc.1 ++ [(h1, hospLabel (acc.2 + 1))], acc.2 + 1)
      refine ⟨(h1, hospLabel (acc.2 + 1)) :: tl, ?_, ?_⟩
      · dsimp only
        rw [he]
        simp
      · intro q hq
        rcases List.mem_cons.mp hq with rfl | hq2
        · exact ⟨acc.2 + 1, rfl⟩
        · exact hv q hq2

/-- Members of an insertion step of the length sort. -/
theorem mem_insertByLen {z x : Str × Str} :
    ∀ {l : List (Str × Str)}, z ∈ insertByLen x l → z = x ∨ z ∈ l := by
  intro l
  induction l with
  | nil => intro h; simpa [insertByLen] using h
  | cons y ys ih =>
    intro h
    unfold insertByLen at h
    by_cases hc : x.1.length ≤ y.1.length
    · rw [if_pos hc] at h
      rcases List.mem_cons.mp h with rfl | h2
      · exact Or.inr (by simp)
      · rcases ih h2 with h3 | h3
        · exact Or.inl h3
        · exact Or.inr (by simp [h3])
    · rw [if_neg hc] at h
      rcases List.mem_cons.mp h with rfl | h2
      · exact Or.inl rfl
      · exact Or.inr h2

/-- The length sort permutes: every member was in the input. -/
theorem mem_sortByLenDesc {z : Str × Str} :
    ∀ {l : List (Str × Str)}, z ∈ sortByLenDesc l → z ∈ l := by
  intro l
  induction l with
  | nil => intro h; simp [sortByLenDesc] at h
  | cons x xs ih =>
    intro h
    unfold sortByLenDesc at h
    rcases mem_insertByLen h with rfl | h2
    · simp
    · exact List.mem_cons_of_mem x (ih h2)

/-- Folding replaceAll over pairs with C-free nonempty values preserves
absence of an all-C string. -/
theorem foldRepPairs_pres {s : Str} {C : Char → Bool}
    (hs : s ≠ []) (hsC : s.all C = true) :
    ∀ (ps : List (Str × Str)) (t : Str),
      (∀ p ∈ ps, p.2.all (fun c => !C c) = true ∧ p.2 ≠ []) →
      ¬ Occurs s t →
      ¬ Occurs s (ps.foldl (fun acc p => replaceAll acc p.1 p.2) t) := by
  intro ps
  induction ps with
  | nil => intro t _ h; simpa using h
  | cons p rest ih =>
    intro t hall h
    rw [List.foldl_cons]
    apply ih _ (fun q hq => hall q (by simp [hq]))
    intro hocc
    have hp := hall p (by simp)
    exact h (occurs_of_occurs_replaceAll hs hsC hp.1 hp.2 hocc)

/-- Digit characters are not Han. -/
theorem isHan_ofNat_digit {m : Nat} (h : m < 10) :
    isHan (Char.ofNat (48 + m)) = false := by
  interval_cases m <;> decide

/-- Decimal numerals contain no Han character. -/
theorem decReprAux_nonHan :
    ∀ (fuel n : Nat), (decReprAux fuel n).all (fun c => !isHan c) = true := by
  intro fuel
  induction fuel with
  | zero => intro n; rfl
  | succ f ih =>
    intro n
    by_cases hn : n < 10
    · simp only [decReprAux, if_pos hn, List.all_cons, List.all_nil,
        Bool.and_true]
      rw [isHan_ofNat_digit hn]
      rfl
    · have hm : n % 10 < 10 := Nat.mod_lt _ (by omega)
      simp only [decReprAux, if_neg hn, List.all_append, ih (n / 10),
        List.all_cons, List.all_nil, Bool.and_true, Bool.true_and]
      rw [isHan_ofNat_digit hm]
      rfl

/-- Hospital pseudonyms contain no Han character. -/
theorem hospLabel_nonHan (k : Nat) :
    (hospLabel k).all (fun c => !isHan c) = true := by
  have h1 : ("hospital ".toList).all (fun c => !isHan c) = true := by decide
  unfold hospLabel lblSuffix
  by_cases hk : k ≤ 26
  · rw [if_pos hk]
    have h2 : isHan (Char.ofNat (64 + k)) = false := by
      interval_cases k <;> decide
    rw [List.all_append, h1]
    simp [h2]
  · rw [if_neg hk]
    rw [List.all_append, h1]
    simp [decRepr, decReprAux_nonHan]

/-- Hospital pseudonyms are nonempty. -/
theorem hospLabel_ne_nil (k : Nat) : hospLabel k ≠ [] := by
  unfold hospLabel
  intro h
  have h2 := List.append_eq_nil.mp h
  exact absurd h2.1 (by decide)

/-- C7: with at least one masthead hospital, the unified identify pass labels
the masthead hospitals first — the first masthead hospital becomes the head of
the mapping with pseudonym hospital A, which is also the main label — and the
masking pass leaves no literal 我院 or 本院 in its output. -/
theorem c7_masthead_hospital_first (text t : Str)
    (hne : (uniIdentifyHospitals text).titleHospitals ≠ []) :
    (uniIdentifyHospitals text).mainLabel = some "hospital A".toList ∧
    (uniIdentifyHospitals text).mapping.head? =
      some ((uniIdentifyHospitals text).titleHospitals.headD [],
        "hospital A".toList) ∧
    ((uniIdentifyHospitals text).mapping.map Prod.fst).take
        (uniIdentifyHospitals text).titleHospitals.length =
      (uniIdentifyHospitals text).titleHospitals ∧
    ¬ Occurs "我院".toList (uniMaskHospitals (uniIdentifyHospitals text) t) ∧
    ¬ Occurs "本院".toList (uniMaskHospitals (uniIdentifyHospitals text) t) := by
  have hospA : hospLabel 1 = "hospital A".toList := by decide
  cases hTH : dedupKeep (uniHospMatches (match firstDtIdx text with
      | some i => List.take i text
      | none => text)) with
  | nil =>
    refine absurd ?_ hne
    unfold uniIdentifyHospitals
    dsimp only
    rw [hTH]
  | cons h0 rest =>
    have hT : (uniIdentifyHospitals text).titleHospitals = h0 :: rest := by
      unfold uniIdentifyHospitals
      dsimp only
      rw [hTH]
    obtain ⟨tl1, hp1, hm1, hv1⟩ := labelFold_app rest ([(h0, hospLabel 1)], 1)
    have hp1' : ((h0 :: rest).foldl (fun (p : List (Str × Str) × Nat) h =>
        (p.1 ++ [(h, hospLabel (p.2 + 1))], p.2 + 1)) ([], 0)).1 =
        (h0, hospLabel 1) :: tl1 := by
      rw [List.foldl_cons]
      exact hp1
    obtain ⟨tl2, hp2, hv2⟩ := lookupFold_app (dedupKeep (uniHospMatches text))
      ((h0 :: rest).foldl (fun (p : List (Str × Str) × Nat) h =>
        (p.1 ++ [(h, hospLabel (p.2 + 1))], p.2 + 1)) ([], 0))
    have hM : (uniIdentifyHospitals text).mapping =
        ((h0, hospLabel 1) :: tl1) ++ tl2 := by
      unfold uniIdentifyHospitals
      dsimp only
      rw [hTH, hp2, hp1']
    have hMain : (uniIdentifyHospitals text).mainLabel =
        some (hospLabel 1) := by
      unfold uniIdentifyHospitals
      dsimp only
      rw [hTH]
      simp only [List.isEmpty_cons, List.headD_cons, if_false,
        Bool.false_eq_true]
      rw [hp1', lookupM_head]
    have hvals : ∀ p ∈ sortByLenDesc (uniIdentifyHospitals text).mapping,
        p.2.all (fun c => !isHan c) = true ∧ p.2 ≠ [] := by
      intro p hp
      have hp' := mem_sortByLenDesc hp
      rw [hM] at hp'
      have hk : ∃ k, p.2 = hospLabel k := by
        rcases List.mem_append.mp hp' with hL | hR
        · rcases List.mem_cons.mp hL with rfl | hL2
          · exact ⟨1, rfl⟩
          · exact hv1 p hL2
        · exact hv2 p hR
      obtain ⟨k, hk⟩ := hk
      rw [hk]
      exact ⟨hospLabel_nonHan k, hospLabel_ne_nil k⟩
    have hmask : uniMaskHospitals (uniIdentifyHospitals text) t =
        (sortByLenDesc (uniIdentifyHospitals text).mapping).foldl
          (fun acc p => replaceAll acc p.1 p.2)
          (replaceAll (replaceAll t "我院".toList (hospLabel 1))
            "本院".toList (hospLabel 1)) := by
      unfold uniMaskHospitals
      rw [hMain]
    refine ⟨by rw [hMain, hospA], ?_, ?_, ?_, ?_⟩
    · rw [hM, hT]
      simp [hospA]
    · rw [hM, hT]
      have hfst : (((h0, hospLabel 1) :: tl1) ++ tl2).map Prod.fst =
          (h0 :: rest) ++ tl2.map Prod.fst := by
        simp [hm1]
      rw [hfst, List.take_left]
    · rw [hmask]
      apply foldRepPairs_pres (C := isHan) (by decide) (by decide) _ _ hvals
      intro hocc
      have h1 := occurs_of_occurs_replaceAll (C := isHan) (by decide)
        (by decide) (hospLabel_nonHan 1) (hospLabel_ne_nil 1) hocc
      exact not_occurs_replaceAll_self (C := isHan) (by decide) (by decide)
        (hospLabel_nonHan 1) (hospLabel_ne_nil 1) h1
    · rw [hmask]
      apply foldRepPairs_pres (C := isHan) (by decide) (by decide) _ _ hvals
      exact not_occurs_replaceAll_self (C := isHan) (by decide) (by decide)
        (hospLabel_nonHan 1) (hospLabel_ne_nil 1)

/-- C7, witness: a record with a masthead hospital before the first
timestamp, masked over a body using 我院 and 本院. -/
theorem c7_witness :
    (uniIdentifyHospitals
        "北京协和医院\n2024-01-01 08:00 查房 患者转入我院".toList).titleHospitals ≠
      [] ∧
    ((uniIdentifyHospitals
        "北京协和医院\n2024-01-01 08:00 查房 患者转入我院".toList).mainLabel =
        some "hospital A".toList ∧
      (uniIdentifyHospitals
          "北京协和医院\n2024-01-01 08:00 查房 患者转入我院".toList).mapping.head? =
        some ((uniIdentifyHospitals
            "北京协和医院\n2024-01-01 08:00 查房 患者转入我院".toList).titleHospitals.headD
            [], "hospital A".toList) ∧
      ((uniIdentifyHospitals
            "北京协和医院\n2024-01-01 08:00 查房 患者转入我院".toList).mapping.map
          Prod.fst).take
          (uniIdentifyHospitals
            "北京协和医院\n2024-01-01 08:00 查房 患者转入我院".toList).titleHospitals.length =
        (uniIdentifyHospitals
          "北京协和医院\n2024-01-01 08:00 查房 患者转入我院".toList).titleHospitals ∧
      ¬ Occurs "我院".toList
        (uniMaskHospitals
          (uniIdentifyHospitals
            "北京协和医院\n2024-01-01 08:00 查房 患者转入我院".toList)
          "患者转入我院，本院收治。北京协和医院记录".toList) ∧
      ¬ Occurs "本院".toList
        (uniMaskHospitals
          (uniIdentifyHospitals
            "北京协和医院\n2024-01-01 08:00 查房 患者转入我院".toList)
          "患者转入我院，本院收治。北京协和医院记录".toList)) :=
  ⟨by decide,
   c7_masthead_hospital_first
     "北京协和医院\n2024-01-01 08:00 查房 患者转入我院".toList
     "患者转入我院，本院收治。北京协和医院记录".toList (by decide)⟩

/-! ## C2: doctor pseudonym assignment and injectivity -/

/-- Character codes below 128 round-trip through Char.ofNat. -/
theorem char_toNat_ofNat_small {k : Nat} (h : k ≤ 127) :
    (Char.ofNat k).toNat = k := by
  interval_cases k <;> decide

/-- Appending a digit multiplies the decimal value by ten. -/
theorem valNum_append (s : Str) (c : Char) :
    valNum (s ++ [c]) = 10 * valNum s + (c.toNat - 48) := by
  unfold valNum
  rw [List.foldl_append]
  rfl

/-- The fuel-driven numeral evaluates back to its argument. -/
theorem valNum_decReprAux :
    ∀ (fuel n : Nat), n < fuel → valNum (decReprAux fuel n) = n := by
  intro fuel
  induction fuel with
  | zero => intro n h; omega
  | succ f ih =>
    intro n h
    by_cases hn : n < 10
    · simp only [decReprAux, if_pos hn]
      have ht : (Char.ofNat (48 + n)).toNat = 48 + n :=
        char_toNat_ofNat_small (by omega)
      simp [valNum, ht]
    · simp only [decReprAux, if_neg hn]
      have hlt : n / 10 < n := Nat.div_lt_self (by omega) (by omega)
      rw [valNum_append, ih (n / 10) (by omega),
        char_toNat_ofNat_small (by omega : 48 + n % 10 ≤ 127)]
      omega

/-- The numeral of n evaluates back to n. -/
theorem valNum_decRepr (n : Nat) : valNum (decRepr n) = n :=
  valNum_decReprAux _ _ (Nat.lt_succ_self n)

/-- Numerals are never empty when any fuel is available. -/
theorem decReprAux_ne_nil (f n : Nat) : decReprAux (f + 1) n ≠ [] := by
  by_cases hn : n < 10
  · simp [decReprAux, hn]
  · simp [decReprAux, hn]

/-- Numerals of numbers past the alphabet have at least two digits. -/
theorem decRepr_len2 {m : Nat} (hm : 27 ≤ m) : 2 ≤ (decRepr m).length := by
  unfold decRepr
  have hm10 : ¬ m < 10 := by omega
  rw [show decReprAux (m + 1) m =
      decReprAux m (m / 10) ++ [Char.ofNat (48 + m % 10)] from by
    simp only [decReprAux, if_neg hm10]]
  rw [List.length_append]
  have hne : decReprAux m (m / 10) ≠ [] := by
    have h2 : m - 1 + 1 = m := by omega
    have h3 := decReprAux_ne_nil (m - 1) (m / 10)
    rwa [h2] at h3
  have h4 : 1 ≤ (decReprAux m (m / 10)).length := by
    cases hq : decReprAux m (m / 10) with
    | nil => exact absurd hq hne
    | cons a l => simp
  simp
  omega

/-- The guarded letter-or-numeral suffix is injective on positive indices. -/
theorem lblSuffix_inj {n m : Nat} (hn : 1 ≤ n) (hm : 1 ≤ m)
    (h : lblSuffix n = lblSuffix m) : n = m := by
  unfold lblSuffix at h
  by_cases h1 : n ≤ 26 <;> by_cases h2 : m ≤ 26
  · rw [if_pos h1, if_pos h2] at h
    have hc : Char.ofNat (64 + n) = Char.ofNat (64 + m) := by simpa using h
    have ht := congrArg Char.toNat hc
    rw [char_toNat_ofNat_small (by omega : 64 + n ≤ 127),
      char_toNat_ofNat_small (by omega : 64 + m ≤ 127)] at ht
    omega
  · rw [if_pos h1, if_neg h2] at h
    have hlen := congrArg List.length h
    have hl2 := decRepr_len2 (m := m) (by omega)
    simp at hlen
    omega
  · rw [if_neg h1, if_pos h2] at h
    have hlen := congrArg List.length h
    have hl2 := decRepr_len2 (m := n) (by omega)
    simp at hlen
    omega
  · rw [if_neg h1, if_neg h2] at h
    have hv := congrArg valNum h
    rwa [valNum_decRepr, valNum_decRepr] at hv

/-- Doctor pseudonyms are injective on positive indices. -/
theorem doctorLabel_inj {n m : Nat} (hn : 1 ≤ n) (hm : 1 ≤ m)
    (h : doctorLabel n = doctorLabel m) : n = m := by
  unfold doctorLabel at h
  have h2 := congrArg (List.drop ("doctor".toList).length) h
  rw [List.drop_left, List.drop_left] at h2
  exact lblSuffix_inj hn hm h2

/-- A failed lookup means the key is absent. -/
theorem lookupM_eq_none :
    ∀ {m : List (Str × Str)} {q : Str},
      lookupM m q = none → q ∉ m.map Prod.fst := by
  intro m
  induction m with
  | nil => intro q _; simp
  | cons p rest ih =>
    intro q h
    obtain ⟨k, v⟩ := p
    unfold lookupM at h
    by_cases hk : k = q
    · rw [if_pos hk] at h
      exact absurd h (by simp)
    · rw [if_neg hk] at h
      simp only [List.map_cons, List.mem_cons]
      intro hc
      rcases hc with hc | hc
      · exact hk hc.symm
      · exact ih h hc

/-- One identify_doctors step either keeps the state or appends the next
labelled pair. -/
theorem uniAddDoctor_cases (st : PseudoSt) (nm : Str) :
    uniAddDoctor st nm = st ∨
    (lookupM st.mapping nm = none ∧
      uniAddDoctor st nm =
        ⟨st.mapping ++ [(nm, doctorLabel (st.counter + 1))],
          st.counter + 1⟩) := by
  unfold uniAddDoctor
  by_cases e1 : uniExcludeDoctorWords.contains nm = true
  · rw [if_pos e1]
    exact Or.inl rfl
  · rw [if_neg e1]
    by_cases e2 : (hasSeg nm "病例".toList || hasSeg nm "首次".toList ||
        hasSeg nm "记录".toList || hasSeg nm "日期".toList) = true
    · rw [if_pos e2]
      exact Or.inl rfl
    · rw [if_neg e2]
      by_cases e3 : nm.length < 2
      · rw [if_pos e3]
        exact Or.inl rfl
      · rw [if_neg e3]
        cases hlk : lookupM st.mapping nm with
        | some v => exact Or.inl rfl
        | none => exact Or.inr ⟨rfl, rfl⟩

/-- One identify_doctors step preserves the labelling invariant. -/
theorem uniAddDoctor_pres (st : PseudoSt) (nm : Str)
    (h1 : st.counter = st.mapping.length)
    (h2 : st.mapping.map Prod.snd =
      (List.range st.mapping.length).map (fun i => doctorLabel (i + 1)))
    (h3 : (st.mapping.map Prod.fst).Nodup) :
    (uniAddDoctor st nm).counter = (uniAddDoctor st nm).mapping.length ∧
    (uniAddDoctor st nm).mapping.map Prod.snd =
      (List.range (uniAddDoctor st nm).mapping.length).map
        (fun i => doctorLabel (i + 1)) ∧
    ((uniAddDoctor st nm).mapping.map Prod.fst).Nodup := by
  rcases uniAddDoctor_cases st nm with he | ⟨hlk, he⟩
  · rw [he]
    exact ⟨h1, h2, h3⟩
  · rw [he]
    refine ⟨by simp [h1], ?_, ?_⟩
    · have hlen : (st.mapping ++
          [(nm, doctorLabel (st.counter + 1))]).length =
          st.mapping.length + 1 := by simp
      rw [List.map_append, h2, hlen, List.range_succ, List.map_append]
      simp [h1]
    · rw [List.map_append]
      have hnotin : nm ∉ st.mapping.map Prod.fst := lookupM_eq_none hlk
      simp [List.nodup_append, h3, hnotin]

/-- The identify_doctors fold keeps counter, positional labels and
key-uniqueness in lockstep. -/
theorem uniDoctorFold_inv :
    ∀ (l : List Str) (st : PseudoSt),
      st.counter = st.mapping.length →
      st.mapping.map Prod.snd =
        (List.range st.mapping.length).map (fun i => doctorLabel (i + 1)) →
      (st.mapping.map Prod.fst).Nodup →
        ((l.foldl uniAddDoctor st).counter =
            (l.foldl uniAddDoctor st).mapping.length ∧
          (l.foldl uniAddDoctor st).mapping.map Prod.snd =
            (List.range (l.foldl uniAddDoctor st).mapping.length).map
              (fun i => doctorLabel (i + 1)) ∧
          ((l.foldl uniAddDoctor st).mapping.map Prod.fst).Nodup) := by
  intro l
  induction l with
  | nil => intro st h1 h2 h3; exact ⟨h1, h2, h3⟩
  | cons nm l2 ih =>
    intro st h1 h2 h3
    rw [List.foldl_cons]
    obtain ⟨g1, g2, g3⟩ := uniAddDoctor_pres st nm h1 h2 h3
    exact ih _ g1 g2 g3

/-- Positional doctor labels are pairwise distinct. -/
theorem rangeLabels_nodup (n : Nat) :
    ((List.range n).map (fun i => doctorLabel (i + 1))).Nodup := by
  have hinj : Function.Injective (fun i => doctorLabel (i + 1)) := by
    intro a b hab
    have := doctorLabel_inj (by omega) (by omega) hab
    omega
  exact (List.nodup_range n).map hinj

/-- C2, amended: over any candidate list, UnifiedMedicalMasker's
identify_doctors fold gives the Nth distinct surviving name the pseudonym
doctor plus the Nth uppercase letter for N up to 26 and the decimal numeral
beyond, keeps its counter equal to the mapping size, and produces a mapping
injective in both names and pseudonyms. (The admission deidentifier's
unguarded chr(64+N) breaks the letter rule at the 27th hospital.) -/
theorem c2_label_assignment (cands : List Str) :
    (cands.foldl uniAddDoctor ⟨[], 0⟩).counter =
      (cands.foldl uniAddDoctor ⟨[], 0⟩).mapping.length ∧
    (cands.foldl uniAddDoctor ⟨[], 0⟩).mapping.map Prod.snd =
      (List.range (cands.foldl uniAddDoctor ⟨[], 0⟩).mapping.length).map
        (fun i => doctorLabel (i + 1)) ∧
    ((cands.foldl uniAddDoctor ⟨[], 0⟩).mapping.map Prod.fst).Nodup ∧
    ((cands.foldl uniAddDoctor ⟨[], 0⟩).mapping.map Prod.snd).Nodup := by
  obtain ⟨g1, g2, g3⟩ := uniDoctorFold_inv cands ⟨[], 0⟩ rfl rfl (by simp)
  refine ⟨g1, g2, g3, ?_⟩
  rw [g2]
  exact rangeLabels_nodup _

end HospMask
